import Mathlib

/-!
Verification of the mmc memory-mapped transform engine (mmap-deflate /
mmap-inflate / mmap-lz4-compress / mmap-lz4-decompress).

The C sources are shallowly embedded: size_t arithmetic is Nat with explicit
wrapping where underflow matters, file contents are total functions
Nat → Nat read only below the tracked length, and syscall success
(munmap / ftruncate / mremap) is an environment oracle Nat → Bool indexed by
a per-run syscall counter.  Each driver loop is a fuel-indexed iteration of
a step function that also records a trace of events (codec calls, unmaps,
grows, the final truncation) so that claims about control flow are
statements about the trace.
-/

namespace Mmc

/-- Number of values of size_t. -/
def SIZE_WRAP : Nat := 2 ^ 64

/-- UINT_MAX, the cap applied to zlib avail_in / avail_out. -/
def UINT_MAX : Nat := 4294967295

/-- UNMAP_SPAN_SIZE = 1 << 16 from unmap_unused_pages. -/
def UNMAP_SPAN_SIZE : Nat := 65536

/-- size_t subtraction with wraparound (both arguments below 2^64). -/
def wrapSub (a b : Nat) : Nat := if b ≤ a then a - b else SIZE_WRAP - (b - a)

/-- Error taxonomy: every Error value in the C code is either an I/O error
(errno-carrying eformat message) or a codec-library error. -/
inductive Err where
  | ioError : Err
  | codecError : Err
deriving DecidableEq

/-- FileAndMapping from src/common.h: a descriptor plus a mapping of a suffix
of the file.  `front` is the file offset of the current mapping base (the
amount the contents pointer has been advanced by unmap_unused_pages),
`size` the C struct's .size field (current mapping length), `len` the
current on-disk file length, and `data` the byte content of the file as a
total function (only indices below `len` are ever read). -/
structure FAM where
  front : Nat
  size : Nat
  len : Nat
  data : Nat → Nat

/-- FileAndMapping from include/common/file.h (the later draft used by
run_transformer_app): it tracks the file length and the mapping offset as
explicit fields file_size and mapping_offset.  `moff` is mapping_offset
(which advances in lockstep with the mapping pointer), `msize` is
mapping_size, `flen` is file_size. -/
structure FAM2 where
  moff : Nat
  msize : Nat
  flen : Nat
  data : Nat → Nat

/-- Read `len` bytes starting at absolute file position `pos`. -/
def readBytes (d : Nat → Nat) (pos len : Nat) : List Nat :=
  (List.range len).map fun j => d (pos + j)

/-- Write the bytes of `chunk` at absolute file position `pos`. -/
def overwrite (d : Nat → Nat) (pos : Nat) (chunk : List Nat) : Nat → Nat :=
  fun i => if pos ≤ i ∧ i < pos + chunk.length then chunk.getD (i - pos) 0 else d i

/-- Result of unmap_unused_pages: possible error, updated file, updated
first-unused offset, updated syscall counter, bytes actually unmapped. -/
structure UnmapOut where
  err? : Option Err
  file : FAM
  off : Nat
  ctr : Nat
  bytes : Nat

/-- unmap_unused_pages from src/src/common.c lines 254-280.  num_spans is
computed as (first_unused_offset - 1) / UNMAP_SPAN_SIZE in size_t
arithmetic, so an offset of 0 wraps to a span count of 2^48 - 1 and a
munmap length of 2^64 - 65536 bytes; the kernel rejects a range that
extends that far past the mapping base (addr + len does not fit), so that
munmap call always fails.  A munmap whose length lies inside the mapping
succeeds or fails according to the environment oracle.  On failure the
function returns the error without touching the file or the offset. -/
def unmap_unused_pages (env : Nat → Bool) (ctr : Nat) (file : FAM) (off : Nat) :
    UnmapOut :=
  let numSpans := wrapSub off 1 / UNMAP_SPAN_SIZE
  if numSpans = 0 then ⟨none, file, off, ctr, 0⟩
  else
    let bytes := numSpans * UNMAP_SPAN_SIZE
    if bytes ≤ file.size ∧ env ctr = true then
      ⟨none, ⟨file.front + bytes, file.size - bytes, file.len, file.data⟩,
        off - bytes, ctr + 1, bytes⟩
    else ⟨some .ioError, file, off, ctr + 1, 0⟩

/-- Result of the file.c variant of unmap_unused_pages. -/
structure UnmapOut2 where
  err? : Option Err
  file : FAM2
  off : Nat
  ctr : Nat
  bytes : Nat

/-- unmap_unused_pages from src/src/file.c lines 118-144: identical span
arithmetic; additionally advances the mapping_offset field. -/
def unmap_unused_pages2 (env : Nat → Bool) (ctr : Nat) (file : FAM2) (off : Nat) :
    UnmapOut2 :=
  let numSpans := wrapSub off 1 / UNMAP_SPAN_SIZE
  if numSpans = 0 then ⟨none, file, off, ctr, 0⟩
  else
    let bytes := numSpans * UNMAP_SPAN_SIZE
    if bytes ≤ file.msize ∧ env ctr = true then
      ⟨none, ⟨file.moff + bytes, file.msize - bytes, file.flen, file.data⟩,
        off - bytes, ctr + 1, bytes⟩
    else ⟨some .ioError, file, off, ctr + 1, 0⟩

/-- Result of expand_output_mapping (common.c variant). -/
structure ExpandOut where
  err? : Option Err
  file : FAM
  currentSize : Nat
  ctr : Nat
  grew : Bool

/-- expand_output_mapping from src/src/common.c lines 282-314.  The guard is
the code's literal condition file->size < num_bytes_in_use (no-op branch);
otherwise the tracked current_size is doubled, the file is ftruncated to
the doubled value and the mapping extended by the old current_size via
mremap.  ftruncate's zero-filling of a newly exposed region is not
modelled: in these drivers every extension enlarges a freshly created file
whose unwritten bytes are already zero, and the final shrink is never
followed by an extension. -/
def expand_output_mapping (env : Nat → Bool) (ctr : Nat) (file : FAM)
    (currentSize inUse : Nat) : ExpandOut :=
  if file.size < inUse then ⟨none, file, currentSize, ctr, false⟩
  else
    let newSize := currentSize + currentSize
    if env ctr = true then
      let f1 : FAM := ⟨file.front, file.size, newSize, file.data⟩
      if env (ctr + 1) = true then
        ⟨none, ⟨f1.front, file.size + currentSize, f1.len, f1.data⟩,
          newSize, ctr + 2, true⟩
      else ⟨some .ioError, f1, currentSize, ctr + 2, false⟩
    else ⟨some .ioError, file, currentSize, ctr + 1, false⟩

/-- Result of expand_output_mapping (file.c variant). -/
structure ExpandOut2 where
  err? : Option Err
  file : FAM2
  ctr : Nat
  grew : Bool

/-- expand_output_mapping from src/src/file.c lines 146-179.  The growth
increment is the current file_size; file_size is doubled via
truncate-extend (and the field updated before the mremap), then the
mapping is extended by the increment. -/
def expand_output_mapping2 (env : Nat → Bool) (ctr : Nat) (file : FAM2)
    (firstUnused : Nat) : ExpandOut2 :=
  if file.msize < firstUnused then ⟨none, file, ctr, false⟩
  else
    let inc := file.flen
    let newSize := file.flen + inc
    if env ctr = true then
      let f1 : FAM2 := ⟨file.moff, file.msize, newSize, file.data⟩
      if env (ctr + 1) = true then
        ⟨none, ⟨f1.moff, file.msize + inc, f1.flen, f1.data⟩, ctr + 2, true⟩
      else ⟨some .ioError, f1, ctr + 2, false⟩
    else ⟨some .ioError, file, ctr + 1, false⟩

/-- max_compressed_size from src/src/deflate.c lines 286-298.
BLOCK_SIZE = 16000, BYTES_PER_BLOCK = 5, OVERHEAD_PER_STREAM is a
zero-initialized static const, hence 0.  The block count is
uncompressed_size / BLOCK_SIZE, incremented exactly when
uncompressed_size % BLOCK_SIZE == 0. -/
def max_compressed_size (uncompressed_size : Nat) : Nat :=
  let BLOCK_SIZE := 16000
  let BYTES_PER_BLOCK := 5
  let OVERHEAD_PER_STREAM := 0
  let num_blocks :=
    uncompressed_size / BLOCK_SIZE +
      (if uncompressed_size % BLOCK_SIZE = 0 then 1 else 0)
  uncompressed_size + num_blocks * BYTES_PER_BLOCK + OVERHEAD_PER_STREAM

/-- The syscall performed by create_and_map_file, for tracing which
descriptors get closed on each error path. -/
inductive CEv where
  | openC : CEv
  | ftruncateC : CEv
  | mmapC : CEv
  | closeC : CEv
deriving DecidableEq

/-- create_and_map_file from src/src/common.c lines 78-109 (the file.c copy at
lines 74-116 has the same error-path structure): open, ftruncate to the
requested length, mmap.  On ftruncate failure the function returns the
IOError without closing the descriptor; on mmap failure it closes the
descriptor first.  The returned trace lists the syscalls performed. -/
def create_and_map_file (openOk truncOk mmapOk : Bool) :
    Option Err × List CEv :=
  if openOk = false then (some .ioError, [CEv.openC])
  else if truncOk = false then (some .ioError, [CEv.openC, CEv.ftruncateC])
  else if mmapOk = false then
    (some .ioError, [CEv.openC, CEv.ftruncateC, CEv.mmapC, CEv.closeC])
  else (none, [CEv.openC, CEv.ftruncateC, CEv.mmapC])

/-! ### The transform_mapped_file drive loop (src/src/common.c lines 130-208) -/

/-- Trace events recorded by the embedded drivers. -/
inductive Ev where
  | call (inPtr inAvail outPtr outAvail : Nat) : Ev
  | ret (consumed produced : Nat) (finished : Bool) : Ev
  | unmapIn (bytes : Nat) : Ev
  | unmapOut (bytes : Nat) : Ev
  | warn : Ev
  | grow (newLen : Nat) : Ev
  | trunc (n : Nat) : Ev
deriving DecidableEq

/-- Outcome of one codec-adapter call: the C step function either returns an
Error or reports via the z_stream the bytes consumed (total_in), the bytes
written through next_out, and the finished flag. -/
inductive CodecOut (σ : Type) where
  | err : CodecOut σ
  | next (cs : σ) (consumed : Nat) (out : List Nat) (finished : Bool) : CodecOut σ

/-- A codec adapter: internal state σ, fed the input view (a byte list) and
the output capacity. -/
def Codec (σ : Type) : Type := σ → List Nat → Nat → CodecOut σ

/-- Working state of transform_mapped_file: codec state, the two
FileAndMappings, the two first-unused offsets, output_final_length,
output_current_length, the syscall counter, and the event trace. -/
structure TmfState (σ : Type) where
  cs : σ
  input : FAM
  output : FAM
  inOff : Nat
  outOff : Nat
  finalLen : Nat
  currentLen : Nat
  ctr : Nat
  trace : List Ev

/-- Result of one iteration of the transform_mapped_file while loop. -/
inductive TmfStep (σ : Type) where
  | fail (s : TmfState σ) (e : Err) : TmfStep σ
  | done (s : TmfState σ) : TmfStep σ
  | cont (s : TmfState σ) : TmfStep σ

/-- The views computed at the top of the loop (common.c lines 151-160):
next_in = contents + input_first_unused_offset,
avail_in = min(input->size - input_first_unused_offset, UINT_MAX), and
likewise for the output.  Returned as (input pointer offset, avail_in,
output pointer offset, avail_out), pointers expressed as file offsets. -/
def tmfViews (s : TmfState σ) : Nat × Nat × Nat × Nat :=
  (s.input.front + s.inOff, min (s.input.size - s.inOff) UINT_MAX,
   s.output.front + s.outOff, min (s.output.size - s.outOff) UINT_MAX)

/-- One iteration of the transform_mapped_file loop: compute views, call the
codec (propagating its error immediately), write its output through the
output view, advance both first-unused offsets and output_final_length,
break if finished, otherwise release consumed input and output pages
(propagating unmap errors) and expand the output mapping (propagating its
errors, re-advising on growth). -/
def transform_iter (c : Codec σ) (env : Nat → Bool) (s : TmfState σ) :
    TmfStep σ :=
  let v := tmfViews s
  let callEv := Ev.call v.1 v.2.1 v.2.2.1 v.2.2.2
  match c s.cs (readBytes s.input.data v.1 v.2.1) v.2.2.2 with
  | .err => .fail { s with trace := s.trace ++ [callEv] } .codecError
  | .next cs' consumed out fin =>
    let s1 : TmfState σ :=
      { s with
        cs := cs'
        output := ⟨s.output.front, s.output.size, s.output.len,
          overwrite s.output.data v.2.2.1 out⟩
        inOff := s.inOff + consumed
        outOff := s.outOff + out.length
        finalLen := s.finalLen + out.length
        trace := s.trace ++ [callEv, Ev.ret consumed out.length fin] }
    if fin then .done s1
    else
      let u1 := unmap_unused_pages env s1.ctr s1.input s1.inOff
      match u1.err? with
      | some e => .fail { s1 with ctr := u1.ctr } e
      | none =>
        let s2 : TmfState σ :=
          { s1 with
            input := u1.file
            inOff := u1.off
            ctr := u1.ctr
            trace := s1.trace ++ [Ev.unmapIn u1.bytes] }
        let u2 := unmap_unused_pages env s2.ctr s2.output s2.outOff
        match u2.err? with
        | some e => .fail { s2 with ctr := u2.ctr } e
        | none =>
          let s3 : TmfState σ :=
            { s2 with
              output := u2.file
              outOff := u2.off
              ctr := u2.ctr
              trace := s2.trace ++ [Ev.unmapOut u2.bytes] }
          let ex := expand_output_mapping env s3.ctr s3.output s3.currentLen
            s3.outOff
          match ex.err? with
          | some e =>
            .fail { s3 with
              output := ex.file
              currentLen := ex.currentSize
              ctr := ex.ctr } e
          | none =>
            .cont { s3 with
              output := ex.file
              currentLen := ex.currentSize
              ctr := ex.ctr
              trace := s3.trace ++
                (if ex.grew then [Ev.grow ex.file.len] else []) }

/-- Result of a whole transform_mapped_file run. -/
inductive TmfOut (σ : Type) where
  | fail (s : TmfState σ) (e : Err) : TmfOut σ
  | ok (s : TmfState σ) : TmfOut σ
  | fuelOut : TmfOut σ

/-- transform_mapped_file as a fuel-indexed iteration.  After the loop
breaks, the output file is ftruncated to output_final_length (failure of
that ftruncate is fatal); the model updates only the length since the
final shrink is never followed by an extension. -/
def transform_mapped_file (c : Codec σ) (env : Nat → Bool) :
    Nat → TmfState σ → TmfOut σ
  | 0, _ => .fuelOut
  | fuel + 1, s =>
    match transform_iter c env s with
    | .fail s' e => .fail s' e
    | .cont s' => transform_mapped_file c env fuel s'
    | .done s' =>
      if env s'.ctr = true then
        .ok { s' with
          output := ⟨s'.output.front, s'.output.size, s'.finalLen,
            s'.output.data⟩,
          ctr := s'.ctr + 1,
          trace := s'.trace ++ [Ev.trunc s'.finalLen] }
      else .fail { s' with ctr := s'.ctr + 1 } .ioError

/-- The driver's initial state (common.c lines 140-143):
output_final_length = 0, output_current_length = output->size, both
first-unused offsets 0. -/
def tmfInit (cs : σ) (input output : FAM) : TmfState σ :=
  ⟨cs, input, output, 0, 0, 0, output.size, 0, []⟩

/-- Sum of the produced byte counts the codec reported across a trace. -/
def sumProduced : List Ev → Nat
  | [] => 0
  | Ev.ret _ p _ :: t => p + sumProduced t
  | _ :: t => sumProduced t

/-- The state carried by any TmfStep outcome. -/
def TmfStep.state : TmfStep σ → TmfState σ
  | .fail s _ => s
  | .done s => s
  | .cont s => s

/-- Assert a property of the final state of a successful run. -/
def TmfOut.onOk (r : TmfOut σ) (p : TmfState σ → Prop) : Prop :=
  match r with
  | .ok s => p s
  | _ => False

/-- Assert a property of the state and error of a failed run. -/
def TmfOut.onFail (r : TmfOut σ) (p : TmfState σ → Err → Prop) : Prop :=
  match r with
  | .fail s e => p s e
  | _ => False

/-- Assert a property of the state of a continuing iteration. -/
def TmfStep.onCont (r : TmfStep σ) (p : TmfState σ → Prop) : Prop :=
  match r with
  | .cont s => p s
  | _ => False

theorem sumProduced_append (a b : List Ev) :
    sumProduced (a ++ b) = sumProduced a + sumProduced b := by
  induction a with
  | nil => simp [sumProduced]
  | cons x t ih =>
    cases x <;> simp [sumProduced, ih, Nat.add_assoc]

theorem sumProduced_growIf (g : Bool) (n : Nat) :
    sumProduced (if g = true then [Ev.grow n] else []) = 0 := by
  cases g <;> simp [sumProduced]

theorem transform_iter_sum (c : Codec σ) (env : Nat → Bool) (s : TmfState σ)
    (h : s.finalLen = sumProduced s.trace) :
    (transform_iter c env s).state.finalLen =
      sumProduced (transform_iter c env s).state.trace := by
  unfold transform_iter
  dsimp only
  cases hcall : c s.cs (readBytes s.input.data (tmfViews s).1 (tmfViews s).2.1)
      (tmfViews s).2.2.2 with
  | err =>
    simp [TmfStep.state, sumProduced_append, sumProduced, h]
  | next cs' consumed out fin =>
    cases fin with
    | true => simp [TmfStep.state, sumProduced_append, sumProduced, h]
    | false =>
      simp only [Bool.false_eq_true, if_false]
      split
      · simp [TmfStep.state, sumProduced_append, sumProduced, h]
      · split
        · simp [TmfStep.state, sumProduced_append, sumProduced, h]
        · split
          · simp [TmfStep.state, sumProduced_append, sumProduced, h]
          · simp [TmfStep.state, sumProduced_append, sumProduced, h,
              sumProduced_growIf]

theorem transform_run_sum (c : Codec σ) (env : Nat → Bool) :
    ∀ (fuel : Nat) (s sf : TmfState σ),
      s.finalLen = sumProduced s.trace →
      transform_mapped_file c env fuel s = .ok sf →
      sf.output.len = sf.finalLen ∧ sf.finalLen = sumProduced sf.trace ∧
        Ev.trunc sf.finalLen ∈ sf.trace := by
  intro fuel
  induction fuel with
  | zero => intro s sf _ hrun; simp [transform_mapped_file] at hrun
  | succ n ih =>
    intro s sf hs hrun
    unfold transform_mapped_file at hrun
    cases hit : transform_iter c env s with
    | fail s' e => rw [hit] at hrun; simp at hrun
    | cont s' =>
      rw [hit] at hrun
      dsimp only at hrun
      have hs' : s'.finalLen = sumProduced s'.trace := by
        have := transform_iter_sum c env s hs
        rw [hit] at this
        exact this
      exact ih s' sf hs' hrun
    | done s' =>
      rw [hit] at hrun
      dsimp only at hrun
      have hs' : s'.finalLen = sumProduced s'.trace := by
        have := transform_iter_sum c env s hs
        rw [hit] at this
        exact this
      by_cases henv : env s'.ctr = true
      · rw [if_pos henv] at hrun
        cases hrun
        refine ⟨rfl, ?_, ?_⟩
        · simp [sumProduced_append, sumProduced, hs']
        · simp
      · rw [if_neg henv] at hrun
        simp at hrun

/-- C1: on every successful transform_mapped_file run starting from the
driver's initial state, the output file's final length after the
post-loop truncation equals exactly the total number of bytes the codec
reported producing over all iterations, and the truncation event is
present in the trace — also when the codec finished on the very first
call having consumed and produced nothing. -/
theorem transform_truncates_to_produced (c : Codec σ) (env : Nat → Bool)
    (fuel : Nat) (cs : σ) (input output : FAM) (sf : TmfState σ)
    (hrun : transform_mapped_file c env fuel (tmfInit cs input output) = .ok sf) :
    sf.output.len = sf.finalLen ∧ sf.finalLen = sumProduced sf.trace ∧
      Ev.trunc sf.finalLen ∈ sf.trace :=
  transform_run_sum c env fuel (tmfInit cs input output) sf rfl hrun

/-- A codec that immediately reports completion with nothing consumed or
produced, as a well-behaved adapter does on empty input. -/
def codecFinZero : Codec Unit := fun s _ _ => .next s 0 [] true

/-- Witness for C1: the empty-input run — codec finishes on the first call
with (0, 0) — still truncates the output (to length zero), and the final
length equals the zero bytes produced. -/
theorem transform_truncates_to_produced_witness :
    (transform_mapped_file codecFinZero (fun _ => true) 1
      (tmfInit () ⟨0, 0, 0, fun _ => 0⟩ ⟨0, 5, 5, fun _ => 0⟩)).onOk
      (fun sf => sf.output.len = sf.finalLen ∧
        sf.finalLen = sumProduced sf.trace ∧ Ev.trunc sf.finalLen ∈ sf.trace) := by
  obtain ⟨sf, hsf⟩ : ∃ sf, transform_mapped_file codecFinZero (fun _ => true) 1
      (tmfInit () ⟨0, 0, 0, fun _ => 0⟩ ⟨0, 5, 5, fun _ => 0⟩) = .ok sf := ⟨_, rfl⟩
  rw [hsf]
  exact transform_truncates_to_produced codecFinZero (fun _ => true) 1 ()
    ⟨0, 0, 0, fun _ => 0⟩ ⟨0, 5, 5, fun _ => 0⟩ sf hsf

/-- C9: if the codec step reports an error, the drive loop terminates
immediately — whatever fuel remains — propagating a CodecError to the
caller; the trace gains only the codec-call event, so no further codec
invocations, page releases, grows, or final truncation happen after the
error. -/
theorem codec_error_aborts (c : Codec σ) (env : Nat → Bool) (s : TmfState σ)
    (fuel : Nat)
    (herr : c s.cs (readBytes s.input.data (tmfViews s).1 (tmfViews s).2.1)
      (tmfViews s).2.2.2 = .err) :
    transform_mapped_file c env (fuel + 1) s =
      .fail { s with trace := s.trace ++
        [Ev.call (tmfViews s).1 (tmfViews s).2.1 (tmfViews s).2.2.1
          (tmfViews s).2.2.2] } .codecError := by
  unfold transform_mapped_file transform_iter
  dsimp only
  rw [herr]

/-- A codec that always reports an error, as an adapter does on corrupted
input. -/
def codecErrAlways : Codec Unit := fun _ _ _ => .err

/-- Witness for C9: a corrupted-input run fails with a CodecError on the
first call even with plenty of fuel left, and its trace ends at that
call — no truncation event. -/
theorem codec_error_aborts_witness :
    transform_mapped_file codecErrAlways (fun _ => true) 5
      (tmfInit () ⟨0, 3, 3, fun _ => 0⟩ ⟨0, 4, 4, fun _ => 0⟩) =
    .fail { tmfInit () ⟨0, 3, 3, fun _ => 0⟩ ⟨0, 4, 4, fun _ => 0⟩ with
      trace := [] ++ [Ev.call 0 3 0 4] } .codecError :=
  codec_error_aborts codecErrAlways (fun _ => true)
    (tmfInit () ⟨0, 3, 3, fun _ => 0⟩ ⟨0, 4, 4, fun _ => 0⟩) 4 rfl

theorem readBytes_length (d : Nat → Nat) (pos len : Nat) :
    (readBytes d pos len).length = len := by
  simp [readBytes]

theorem unmap_ok_shape (env : Nat → Bool) (ctr : Nat) (file : FAM) (off : Nat)
    (h : (unmap_unused_pages env ctr file off).err? = none) :
    (unmap_unused_pages env ctr file off).file.front =
      file.front + (unmap_unused_pages env ctr file off).bytes ∧
    (unmap_unused_pages env ctr file off).file.size =
      file.size - (unmap_unused_pages env ctr file off).bytes ∧
    (unmap_unused_pages env ctr file off).file.len = file.len ∧
    (unmap_unused_pages env ctr file off).file.data = file.data ∧
    (unmap_unused_pages env ctr file off).off =
      off - (unmap_unused_pages env ctr file off).bytes ∧
    (unmap_unused_pages env ctr file off).bytes ≤ file.size := by
  unfold unmap_unused_pages at h ⊢
  dsimp only at h ⊢
  by_cases h0 : wrapSub off 1 / UNMAP_SPAN_SIZE = 0
  · rw [if_pos h0]
    simp
  · rw [if_neg h0] at h ⊢
    by_cases h1 : wrapSub off 1 / UNMAP_SPAN_SIZE * UNMAP_SPAN_SIZE ≤ file.size ∧
        env ctr = true
    · rw [if_pos h1]
      exact ⟨rfl, rfl, rfl, rfl, rfl, h1.1⟩
    · rw [if_neg h1] at h
      simp at h

theorem expand_ok_shape (env : Nat → Bool) (ctr : Nat) (file : FAM)
    (cur inUse : Nat) (hg : ¬ file.size < inUse)
    (h : (expand_output_mapping env ctr file cur inUse).err? = none) :
    (expand_output_mapping env ctr file cur inUse).file.front = file.front ∧
    (expand_output_mapping env ctr file cur inUse).file.size = file.size + cur ∧
    (expand_output_mapping env ctr file cur inUse).file.len = cur + cur ∧
    (expand_output_mapping env ctr file cur inUse).file.data = file.data ∧
    (expand_output_mapping env ctr file cur inUse).currentSize = cur + cur ∧
    (expand_output_mapping env ctr file cur inUse).grew = true := by
  unfold expand_output_mapping at h ⊢
  rw [if_neg hg] at h ⊢
  dsimp only at h ⊢
  by_cases h1 : env ctr = true
  · rw [if_pos h1] at h ⊢
    by_cases h2 : env (ctr + 1) = true
    · rw [if_pos h2]
      exact ⟨rfl, rfl, rfl, rfl, rfl, rfl⟩
    · rw [if_neg h2] at h
      simp at h
  · rw [if_neg h1] at h
    simp at h

/-- Logical consumed offset: the input's base file offset plus the relative
first-unused offset. -/
def conOff (s : TmfState σ) : Nat := s.input.front + s.inOff

/-- Logical produced offset: likewise for the output. -/
def prodOff (s : TmfState σ) : Nat := s.output.front + s.outOff

/-- The driver's state invariant: offsets within the mappings, mappings
covering exactly the suffix of each file, and output_current_length
tracking the output file length. -/
def TmfInv (s : TmfState σ) : Prop :=
  s.inOff ≤ s.input.size ∧ s.outOff ≤ s.output.size ∧
  s.input.front + s.input.size = s.input.len ∧
  s.output.front + s.output.size = s.output.len ∧
  s.output.len = s.currentLen

/-- C8: across every non-failing iteration of the drive loop, under the
adapter contract (never consume or produce more than offered), the
invariant is preserved, the logical consumed and produced offsets are
non-decreasing, the consumed offset never exceeds the (unchanged) input
file length, and the produced offset never exceeds the output file's
current length. -/
theorem offsets_monotone (c : Codec σ) (env : Nat → Bool) (s s' : TmfState σ)
    (hc : ∀ st v cap cs' con out fin, c st v cap = .next cs' con out fin →
      con ≤ v.length ∧ out.length ≤ cap)
    (hI : TmfInv s)
    (h : transform_iter c env s = .cont s' ∨ transform_iter c env s = .done s') :
    TmfInv s' ∧ conOff s ≤ conOff s' ∧ prodOff s ≤ prodOff s' ∧
    conOff s' ≤ s'.input.len ∧ prodOff s' ≤ s'.output.len ∧
    s'.input.len = s.input.len := by
  obtain ⟨hIn, hOut, hInLen, hOutLen, hLenCur⟩ := hI
  unfold transform_iter at h
  dsimp only at h
  cases hcall : c s.cs (readBytes s.input.data (tmfViews s).1 (tmfViews s).2.1)
      (tmfViews s).2.2.2 with
  | err =>
    rw [hcall] at h
    dsimp only at h
    rcases h with h | h <;> exact absurd h (by simp)
  | next cs' con out fin =>
    rw [hcall] at h
    have hb := hc _ _ _ _ _ _ _ hcall
    rw [readBytes_length] at hb
    have hcon : con ≤ s.input.size - s.inOff := by
      have := hb.1
      unfold tmfViews at this
      dsimp only at this
      omega
    have holen : out.length ≤ s.output.size - s.outOff := by
      have := hb.2
      unfold tmfViews at this
      dsimp only at this
      omega
    cases fin with
    | true =>
      dsimp only [if_pos] at h
      rcases h with h | h
      · exact absurd h (by simp)
      · injection h with h
        subst h
        refine ⟨⟨?_, ?_, ?_, ?_, ?_⟩, ?_, ?_, ?_, ?_, ?_⟩ <;>
          simp only [TmfInv, conOff, prodOff] <;> omega
    | false =>
      simp only [Bool.false_eq_true, if_false] at h
      cases hu1 : (unmap_unused_pages env s.ctr s.input (s.inOff + con)).err? with
      | some e =>
        rw [hu1] at h
        dsimp only at h
        rcases h with h | h <;> exact absurd h (by simp)
      | none =>
        rw [hu1] at h
        dsimp only at h
        obtain ⟨e1f, e1s, e1l, e1d, e1o, e1b⟩ := unmap_ok_shape env s.ctr
          s.input (s.inOff + con) hu1
        cases hu2 : (unmap_unused_pages env
            (unmap_unused_pages env s.ctr s.input (s.inOff + con)).ctr
            ⟨s.output.front, s.output.size, s.output.len,
              overwrite s.output.data (tmfViews s).2.2.1 out⟩
            (s.outOff + out.length)).err? with
        | some e =>
          rw [hu2] at h
          dsimp only at h
          rcases h with h | h <;> exact absurd h (by simp)
        | none =>
          rw [hu2] at h
          dsimp only at h
          obtain ⟨e2f, e2s, e2l, e2d, e2o, e2b⟩ := unmap_ok_shape env
            (unmap_unused_pages env s.ctr s.input (s.inOff + con)).ctr
            ⟨s.output.front, s.output.size, s.output.len,
              overwrite s.output.data (tmfViews s).2.2.1 out⟩
            (s.outOff + out.length) hu2
          dsimp only at e2f e2s e2l e2d e2o e2b
          have hg : ¬ ((unmap_unused_pages env
              (unmap_unused_pages env s.ctr s.input (s.inOff + con)).ctr
              ⟨s.output.front, s.output.size, s.output.len,
                overwrite s.output.data (tmfViews s).2.2.1 out⟩
              (s.outOff + out.length)).file.size <
            (unmap_unused_pages env
              (unmap_unused_pages env s.ctr s.input (s.inOff + con)).ctr
              ⟨s.output.front, s.output.size, s.output.len,
                overwrite s.output.data (tmfViews s).2.2.1 out⟩
              (s.outOff + out.length)).off) := by
            rw [e2s, e2o]
            omega
          cases hex : (expand_output_mapping env
              (unmap_unused_pages env
                (unmap_unused_pages env s.ctr s.input (s.inOff + con)).ctr
                ⟨s.output.front, s.output.size, s.output.len,
                  overwrite s.output.data (tmfViews s).2.2.1 out⟩
                (s.outOff + out.length)).ctr
              (unmap_unused_pages env
                (unmap_unused_pages env s.ctr s.input (s.inOff + con)).ctr
                ⟨s.output.front, s.output.size, s.output.len,
                  overwrite s.output.data (tmfViews s).2.2.1 out⟩
                (s.outOff + out.length)).file
              s.currentLen
              (unmap_unused_pages env
                (unmap_unused_pages env s.ctr s.input (s.inOff + con)).ctr
                ⟨s.output.front, s.output.size, s.output.len,
                  overwrite s.output.data (tmfViews s).2.2.1 out⟩
                (s.outOff + out.length)).off).err? with
          | some e =>
            rw [hex] at h
            dsimp only at h
            rcases h with h | h <;> exact absurd h (by simp)
          | none =>
            rw [hex] at h
            dsimp only at h
            obtain ⟨e3f, e3s, e3l, e3d, e3c, e3g⟩ := expand_ok_shape env _ _
              s.currentLen _ hg hex
            rcases h with h | h
            · injection h with h
              subst h
              refine ⟨⟨?_, ?_, ?_, ?_, ?_⟩, ?_, ?_, ?_, ?_, ?_⟩ <;>
                simp only [TmfInv, conOff, prodOff] <;>
                (try simp only [e3f, e3s, e3l, e3c]) <;>
                (try simp only [e2f, e2s, e2l, e2o]) <;>
                (try simp only [e1f, e1s, e1l, e1o]) <;> omega
            · exact absurd h (by simp)

/-- A codec consuming at most one byte and producing at most one byte per
call, never finishing; it satisfies the adapter contract. -/
def codecOneByte : Codec Unit := fun st v cap =>
  .next st (min v.length 1) (List.replicate (min cap 1) 7) false

theorem codecOneByte_contract :
    ∀ (st : Unit) (v : List Nat) (cap : Nat) cs' con out fin,
      codecOneByte st v cap = .next cs' con out fin →
      con ≤ v.length ∧ out.length ≤ cap := by
  intro st v cap cs' con out fin h
  simp only [codecOneByte, CodecOut.next.injEq] at h
  obtain ⟨-, h1, h2, -⟩ := h
  rw [← h1, ← h2]
  constructor
  · omega
  · simp only [List.length_replicate]
    omega

/-- Witness for offsets_monotone: one concrete continuing iteration with a
one-byte codec preserves the invariant and advances both offsets within
bounds. -/
theorem offsets_monotone_witness :
    (transform_iter codecOneByte (fun _ => true)
      (tmfInit () ⟨0, 3, 3, fun _ => 0⟩ ⟨0, 5, 5, fun _ => 0⟩)).onCont
      (fun s' =>
        TmfInv s' ∧
        conOff (tmfInit () ⟨0, 3, 3, fun _ => 0⟩ ⟨0, 5, 5, fun _ => 0⟩) ≤ conOff s' ∧
        prodOff (tmfInit () ⟨0, 3, 3, fun _ => 0⟩ ⟨0, 5, 5, fun _ => 0⟩) ≤ prodOff s' ∧
        conOff s' ≤ s'.input.len ∧ prodOff s' ≤ s'.output.len ∧
        s'.input.len = (tmfInit () ⟨0, 3, 3, fun _ => 0⟩ ⟨0, 5, 5, fun _ => 0⟩).input.len) := by
  obtain ⟨s', h⟩ : ∃ s', transform_iter codecOneByte (fun _ => true)
      (tmfInit () ⟨0, 3, 3, fun _ => 0⟩ ⟨0, 5, 5, fun _ => 0⟩) = .cont s' := ⟨_, rfl⟩
  rw [h]
  exact offsets_monotone codecOneByte (fun _ => true) _ s' codecOneByte_contract
    (by unfold TmfInv; decide) (Or.inl h)

/-! ### The run_transformer_app drive loop (src/src/compress.c, second unit,
lines 527-566 of the concatenation; the app.c draft with the
warning-on-unmap-failure policy) -/

/-- AppIOState from include/common/app.h. -/
structure IOState where
  input : FAM2
  output : FAM2
  inOff : Nat
  outOff : Nat
  written : Nat

/-- Outcome of one params->run call: the adapter either reports an Error or
returns the updated codec state and io state plus the finished flag (the
adapter itself advances the offsets and output_bytes_written). -/
inductive AdapterOut (σ : Type) where
  | err : AdapterOut σ
  | next (cs : σ) (io : IOState) (finished : Bool) : AdapterOut σ

/-- An app-style adapter (AppRunFunc). -/
def AppAdapter (σ : Type) : Type := σ → IOState → AdapterOut σ

/-- Loop state of run_transformer_app. -/
structure AppState (σ : Type) where
  cs : σ
  io : IOState
  ctr : Nat
  trace : List Ev

/-- Result of one iteration of the run_transformer_app while loop. -/
inductive AppStep (σ : Type) where
  | fail (s : AppState σ) (e : Err) : AppStep σ
  | cont (s : AppState σ) (finished : Bool) : AppStep σ

/-- One iteration of the run_transformer_app loop: call params->run
(propagating its error), then release consumed input and output pages —
a failure there is printed as a warning and the loop continues — then
expand the output mapping (failure fatal).  Note the unmaps and the
expand run even on the iteration in which the adapter set finished,
because the loop condition is only re-checked at the top. -/
def app_iter (a : AppAdapter σ) (env : Nat → Bool) (s : AppState σ) :
    AppStep σ :=
  match a s.cs s.io with
  | .err => .fail s .codecError
  | .next cs' io' fin =>
    let u1 := unmap_unused_pages2 env s.ctr io'.input io'.inOff
    let io1 : IOState :=
      match u1.err? with
      | some _ => io'
      | none => ⟨u1.file, io'.output, u1.off, io'.outOff, io'.written⟩
    let tr1 : List Ev :=
      match u1.err? with
      | some _ => [Ev.warn]
      | none => [Ev.unmapIn u1.bytes]
    let u2 := unmap_unused_pages2 env u1.ctr io1.output io1.outOff
    let io2 : IOState :=
      match u2.err? with
      | some _ => io1
      | none => ⟨io1.input, u2.file, io1.inOff, u2.off, io1.written⟩
    let tr2 : List Ev :=
      match u2.err? with
      | some _ => [Ev.warn]
      | none => [Ev.unmapOut u2.bytes]
    let ex := expand_output_mapping2 env u2.ctr io2.output io2.outOff
    match ex.err? with
    | some e =>
      .fail { cs := cs'
              io := ⟨io2.input, ex.file, io2.inOff, io2.outOff, io2.written⟩
              ctr := ex.ctr
              trace := s.trace ++ tr1 ++ tr2 } e
    | none =>
      .cont { cs := cs'
              io := ⟨io2.input, ex.file, io2.inOff, io2.outOff, io2.written⟩
              ctr := ex.ctr
              trace := s.trace ++ tr1 ++ tr2 ++
                (if ex.grew then [Ev.grow ex.file.flen] else []) } fin

/-- Result of a whole run_transformer_app transform. -/
inductive AppOut (σ : Type) where
  | fail (s : AppState σ) (e : Err) : AppOut σ
  | ok (s : AppState σ) : AppOut σ
  | fuelOut : AppOut σ

/-- The run_transformer_app while loop plus the final ftruncate of the
output file to output_bytes_written. -/
def app_loop (a : AppAdapter σ) (env : Nat → Bool) :
    Nat → AppState σ → Bool → AppOut σ
  | _, s, true =>
    if env s.ctr = true then
      .ok { s with
        io := ⟨s.io.input,
          ⟨s.io.output.moff, s.io.output.msize, s.io.written, s.io.output.data⟩,
          s.io.inOff, s.io.outOff, s.io.written⟩
        ctr := s.ctr + 1
        trace := s.trace ++ [Ev.trunc s.io.written] }
    else .fail { s with ctr := s.ctr + 1 } .ioError
  | 0, _, false => .fuelOut
  | fuel + 1, s, false =>
    match app_iter a env s with
    | .fail s' e => .fail s' e
    | .cont s' fin => app_loop a env fuel s' fin

/-- run_transformer_app's transform phase, from a freshly initialized
AppIOState (offsets and output_bytes_written all zero). -/
def run_transformer_app (a : AppAdapter σ) (env : Nat → Bool) (fuel : Nat)
    (s : AppState σ) : AppOut σ :=
  app_loop a env fuel s false

/-- Assert a property of the state and flag of a continuing app iteration. -/
def AppStep.onCont (r : AppStep σ) (p : AppState σ → Bool → Prop) : Prop :=
  match r with
  | .cont s fin => p s fin
  | _ => False

/-- Assert a property of the state and error of a failing TmfOut. -/
def AppOut.onFail (r : AppOut σ) (p : AppState σ → Err → Prop) : Prop :=
  match r with
  | .fail s e => p s e
  | _ => False

/-! ### C3: fate of a release_consumed failure, and C7: the codec views -/

/-- A codec that consumes 70000 bytes and produces one byte per call without
finishing. -/
def codecBig : Codec Unit := fun st _ _ => .next st 70000 [7] false

/-- C3 counterexample: in transform_mapped_file a failing unmap of consumed
input pages is not treated as a warning — the run aborts with the IOError
(no warning event is recorded).  Concretely: 70000 bytes consumed on the
first call, one 64 KiB span is eligible, the munmap fails, and the whole
transform fails. -/
theorem unmap_failure_aborts_transform :
    (transform_mapped_file codecBig (fun _ => false) 2
      (tmfInit () ⟨0, 70000, 70000, fun _ => 0⟩
        ⟨0, 70000, 70000, fun _ => 0⟩)).onFail
      (fun s' e => e = Err.ioError ∧ Ev.warn ∉ s'.trace ∧
        Ev.trunc s'.finalLen ∉ s'.trace ∧ Ev.grow s'.currentLen ∉ s'.trace) := by
  exact ⟨rfl, by decide, by decide, by decide⟩

/-- C3 as amended: the two drivers disagree.  In transform_mapped_file an
unmap_unused_pages failure after a non-finishing codec step aborts the run,
propagating the IOError, with no warning event and nothing after the codec
call in the trace; in run_transformer_app the same failure is recorded as
a warning and the iteration continues to the expand step and the next
loop iteration. -/
theorem unmap_failure_fatality_by_driver :
    (∀ (σ : Type) (c : Codec σ) (env : Nat → Bool) (s : TmfState σ)
      (fuel : Nat) (cs' : σ) (con : Nat) (out : List Nat) (e : Err),
      c s.cs (readBytes s.input.data (tmfViews s).1 (tmfViews s).2.1)
          (tmfViews s).2.2.2 = .next cs' con out false →
      (unmap_unused_pages env s.ctr s.input (s.inOff + con)).err? = some e →
      (transform_mapped_file c env (fuel + 1) s).onFail
        (fun s' e' => e' = e ∧
          s'.trace = s.trace ++
            [Ev.call (tmfViews s).1 (tmfViews s).2.1 (tmfViews s).2.2.1
              (tmfViews s).2.2.2,
             Ev.ret con out.length false])) ∧
    (∀ (σ : Type) (a : AppAdapter σ) (env : Nat → Bool) (s : AppState σ)
      (cs' : σ) (io' : IOState) (fin : Bool) (e : Err),
      a s.cs s.io = .next cs' io' fin →
      (unmap_unused_pages2 env s.ctr io'.input io'.inOff).err? = some e →
      (unmap_unused_pages2 env
        (unmap_unused_pages2 env s.ctr io'.input io'.inOff).ctr
        io'.output io'.outOff).err? = none →
      (expand_output_mapping2 env
        (unmap_unused_pages2 env
          (unmap_unused_pages2 env s.ctr io'.input io'.inOff).ctr
          io'.output io'.outOff).ctr
        (unmap_unused_pages2 env
          (unmap_unused_pages2 env s.ctr io'.input io'.inOff).ctr
          io'.output io'.outOff).file
        (unmap_unused_pages2 env
          (unmap_unused_pages2 env s.ctr io'.input io'.inOff).ctr
          io'.output io'.outOff).off).err? = none →
      (app_iter a env s).onCont
        (fun s'' fin' => fin' = fin ∧ Ev.warn ∈ s''.trace)) := by
  constructor
  · intro σ c env s fuel cs' con out e h1 h2
    unfold transform_mapped_file transform_iter
    dsimp only
    rw [h1]
    dsimp only [Bool.false_eq_true, if_false]
    rw [h2]
    exact ⟨rfl, rfl⟩
  · intro σ a env s cs' io' fin e h1 h2 h3 h4
    unfold app_iter
    dsimp only
    rw [h1]
    dsimp only
    rw [h2]
    dsimp only
    rw [h3]
    dsimp only
    rw [h4]
    dsimp only
    exact ⟨rfl, by simp⟩

/-- An app adapter that reports 70000 bytes of input consumed and a
one-byte output position without finishing. -/
def adapterBig : AppAdapter Unit := fun st _ =>
  .next st ⟨⟨0, 70000, 70000, fun _ => 0⟩, ⟨0, 5, 5, fun _ => 0⟩, 70000, 1, 1⟩
    false

/-- Witness for unmap_failure_fatality_by_driver: the transform_mapped_file
half at the concrete 70000-byte state with an always-failing environment,
and the run_transformer_app half with an environment failing only the
first munmap — the app iteration continues with a warning in its trace. -/
theorem unmap_failure_fatality_by_driver_witness :
    ((transform_mapped_file codecBig (fun _ => false) 2
      (tmfInit () ⟨0, 70000, 70000, fun _ => 0⟩
        ⟨0, 70000, 70000, fun _ => 0⟩)).onFail
      (fun s' e' => e' = Err.ioError ∧
        s'.trace = [] ++ [Ev.call 0 70000 0 70000, Ev.ret 70000 1 false])) ∧
    ((app_iter adapterBig (fun n => decide (1 ≤ n))
      ⟨(), ⟨⟨0, 1, 1, fun _ => 0⟩, ⟨0, 1, 1, fun _ => 0⟩, 0, 0, 0⟩, 0, []⟩).onCont
      (fun s'' fin' => fin' = false ∧ Ev.warn ∈ s''.trace)) := by
  constructor
  · exact unmap_failure_fatality_by_driver.1 Unit codecBig (fun _ => false)
      (tmfInit () ⟨0, 70000, 70000, fun _ => 0⟩ ⟨0, 70000, 70000, fun _ => 0⟩)
      1 () 70000 [7] Err.ioError rfl rfl
  · exact unmap_failure_fatality_by_driver.2 Unit adapterBig
      (fun n => decide (1 ≤ n))
      ⟨(), ⟨⟨0, 1, 1, fun _ => 0⟩, ⟨0, 1, 1, fun _ => 0⟩, 0, 0, 0⟩, 0, []⟩
      () ⟨⟨0, 70000, 70000, fun _ => 0⟩, ⟨0, 5, 5, fun _ => 0⟩, 70000, 1, 1⟩
      false Err.ioError rfl rfl rfl rfl

/-- The views the lz4_decompress main loop passes to LZ4F_decompress
(src/src/lz4_decompress.c lines 136-145), as
(source pointer offset, source length, destination pointer offset,
destination capacity): the source pointer is computed as
input_file.contents + output_first_unused — the output's offset — while
the source length uses input_first_unused. -/
def lz4_decompress_views (inFront inSize inOff outFront outSize outOff : Nat) :
    Nat × Nat × Nat × Nat :=
  (inFront + outOff, inSize - inOff, outFront + outOff, outSize - outOff)

/-- C7: the transform_mapped_file views do start the input view at the
input mapping base plus the input's first-unused offset (here 10), but the
lz4_decompress loop passes the input mapping base plus the output's
first-unused offset (here 40) as the input pointer, which differs whenever
the two offsets diverge. -/
theorem lz4_input_view_uses_output_offset :
    (tmfViews (⟨(), ⟨0, 100, 100, fun _ => 0⟩, ⟨0, 200, 200, fun _ => 0⟩,
      10, 40, 40, 200, 0, []⟩ : TmfState Unit)).1 = 0 + 10 ∧
    (lz4_decompress_views 0 100 10 0 200 40).1 = 0 + 40 ∧
    (0 + 40 : Nat) ≠ 0 + 10 := by
  decide

/-! ### Claims about the leaf operations (C2, C4, C6, C10) -/

/-- C2: refutation by evaluation.  With a 100-byte output mapping of which
only 50 bytes are in use — the required offset is comfortably within the
already-mapped span — expand_output_mapping is not a no-op: it doubles the
tracked current_size, truncate-extends the file from 100 to 200 bytes and
extends the mapping to 200 bytes.  The no-op guard file->size <
num_bytes_in_use is inverted and can never fire, since the driver
guarantees num_bytes_in_use ≤ file->size. -/
theorem expand_output_mapping_grows_within_span :
    (expand_output_mapping (fun _ => true) 0 ⟨0, 100, 100, fun _ => 0⟩ 100 50).err? = none ∧
    (expand_output_mapping (fun _ => true) 0 ⟨0, 100, 100, fun _ => 0⟩ 100 50).file.len = 200 ∧
    (expand_output_mapping (fun _ => true) 0 ⟨0, 100, 100, fun _ => 0⟩ 100 50).file.size = 200 ∧
    (expand_output_mapping (fun _ => true) 0 ⟨0, 100, 100, fun _ => 0⟩ 100 50).currentSize = 200 ∧
    (expand_output_mapping (fun _ => true) 0 ⟨0, 100, 100, fun _ => 0⟩ 100 50).grew = true ∧
    50 ≤ 100 := by
  decide

/-- C4 counterexample: with first_unused_offset = 65536 exactly one whole
64 KiB span is fully consumed, so the claim requires
floor(65536 / 65536) = 1 span to be unmapped; the code computes
(65536 - 1) / 65536 = 0 spans and leaves the mapping, the mapping length
and the offset unchanged. -/
theorem unmap_unused_pages_noop_at_exact_span :
    (unmap_unused_pages (fun _ => true) 0 ⟨0, 131072, 131072, fun _ => 0⟩ 65536).bytes = 0 ∧
    (unmap_unused_pages (fun _ => true) 0 ⟨0, 131072, 131072, fun _ => 0⟩ 65536).file.front = 0 ∧
    (unmap_unused_pages (fun _ => true) 0 ⟨0, 131072, 131072, fun _ => 0⟩ 65536).file.size = 131072 ∧
    (unmap_unused_pages (fun _ => true) 0 ⟨0, 131072, 131072, fun _ => 0⟩ 65536).off = 65536 ∧
    65536 / UNMAP_SPAN_SIZE = 1 := by
  decide

/-- C4 as amended: for a first-unused offset k ≥ 1 within the mapping,
unmap_unused_pages unmaps exactly floor((k - 1) / 65536) whole 64 KiB
spans from the front (hence is a no-op for 1 ≤ k ≤ 65536), advancing the
mapping base and shrinking the mapping length and the tracked offset by
that many bytes when the munmap succeeds, and leaving everything unchanged
when it fails; a call with k = 0 wraps the size_t subtraction, attempts a
2^64 - 65536 byte munmap and always fails, leaving the state unchanged. -/
theorem unmap_unused_pages_spec (env : Nat → Bool) (ctr : Nat) (file : FAM)
    (off : Nat) :
    (1 ≤ off →
      (((off - 1) / UNMAP_SPAN_SIZE = 0 →
        unmap_unused_pages env ctr file off = ⟨none, file, off, ctr, 0⟩) ∧
      ((off - 1) / UNMAP_SPAN_SIZE ≠ 0 → off ≤ file.size → env ctr = true →
        unmap_unused_pages env ctr file off =
          ⟨none,
            ⟨file.front + (off - 1) / UNMAP_SPAN_SIZE * UNMAP_SPAN_SIZE,
             file.size - (off - 1) / UNMAP_SPAN_SIZE * UNMAP_SPAN_SIZE,
             file.len, file.data⟩,
            off - (off - 1) / UNMAP_SPAN_SIZE * UNMAP_SPAN_SIZE, ctr + 1,
            (off - 1) / UNMAP_SPAN_SIZE * UNMAP_SPAN_SIZE⟩) ∧
      ((off - 1) / UNMAP_SPAN_SIZE ≠ 0 → env ctr = false →
        unmap_unused_pages env ctr file off =
          ⟨some .ioError, file, off, ctr + 1, 0⟩))) ∧
    (off = 0 → file.size < SIZE_WRAP - UNMAP_SPAN_SIZE →
      unmap_unused_pages env ctr file off =
        ⟨some .ioError, file, off, ctr + 1, 0⟩) := by
  constructor
  · intro hoff
    have hws : wrapSub off 1 = off - 1 := by
      unfold wrapSub
      simp [hoff]
    refine ⟨?_, ?_, ?_⟩
    · intro hz
      unfold unmap_unused_pages
      simp [hws, hz]
    · intro hnz hle henv
      have hbytes : (off - 1) / UNMAP_SPAN_SIZE * UNMAP_SPAN_SIZE ≤ file.size := by
        calc (off - 1) / UNMAP_SPAN_SIZE * UNMAP_SPAN_SIZE
            ≤ off - 1 := Nat.div_mul_le_self _ _
          _ ≤ file.size := le_trans (Nat.sub_le _ _) hle
      unfold unmap_unused_pages
      simp [hws, hnz, hbytes, henv]
    · intro hnz henv
      unfold unmap_unused_pages
      simp [hws, hnz, henv]
  · intro hz hsz
    subst hz
    have hws : wrapSub 0 1 = SIZE_WRAP - 1 := by
      unfold wrapSub
      simp
    have hspans : (SIZE_WRAP - 1) / UNMAP_SPAN_SIZE = 281474976710655 := by
      unfold SIZE_WRAP UNMAP_SPAN_SIZE
      decide
    have hbig : ¬ (281474976710655 * UNMAP_SPAN_SIZE ≤ file.size) := by
      intro h
      have : SIZE_WRAP - UNMAP_SPAN_SIZE ≤ file.size := by
        unfold SIZE_WRAP UNMAP_SPAN_SIZE at *
        omega
      omega
    unfold unmap_unused_pages
    simp [hws, hspans, hbig]

/-- Witness for unmap_unused_pages_spec: with k = 70000 inside a
200000-byte mapping and a succeeding munmap, exactly one span (65536
bytes) is unmapped and the offset drops to 4464. -/
theorem unmap_unused_pages_spec_witness :
    unmap_unused_pages (fun _ => true) 0 ⟨0, 200000, 200000, fun _ => 0⟩ 70000 =
      ⟨none, ⟨65536, 134464, 200000, fun _ => 0⟩, 4464, 1, 65536⟩ := by
  have h :=
    ((unmap_unused_pages_spec (fun _ => true) 0 ⟨0, 200000, 200000, fun _ => 0⟩
        70000).1 (by decide)).2.1 (by decide) (by decide) rfl
  exact h

/-- C6 counterexample: the claim's formula n + ceil(n / 16000) * 5 + 0 gives
16005 at n = 16000, but max_compressed_size 16000 = 16010 (and at
n = 15999 the claim gives 16004 while the code gives 15999): the code
increments the block count exactly when 16000 divides n, not when a
partial block was started. -/
theorem max_compressed_size_not_ceil :
    max_compressed_size 16000 = 16010 ∧
    16000 + (16000 + 15999) / 16000 * 5 + 0 = 16005 ∧
    max_compressed_size 15999 = 15999 ∧
    15999 + (15999 + 15999) / 16000 * 5 + 0 = 16004 := by
  decide

/-- C6 as amended: max_compressed_size returns n plus 5 bytes for every
complete 16000-byte block, plus an extra 5 exactly when n is a multiple of
16000 (in particular 5 at n = 0), plus a stream overhead of 0; started
but incomplete trailing blocks receive no per-block overhead. -/
theorem max_compressed_size_closed_form (n : Nat) :
    max_compressed_size n =
      n + n / 16000 * 5 + (if n % 16000 = 0 then 5 else 0) := by
  unfold max_compressed_size
  by_cases h : n % 16000 = 0
  · simp only [h, if_pos]
    omega
  · simp only [h, if_neg, if_false]
    omega

/-- C10: the create_and_map_file error paths are asymmetric about the
descriptor.  When ftruncate fails the function returns an IOError without
a close of the just-opened descriptor (leaking it); when mmap fails the
descriptor is closed before the IOError is returned. -/
theorem create_and_map_file_fd_asymmetry :
    (create_and_map_file true false true).1 = some .ioError ∧
    CEv.closeC ∉ (create_and_map_file true false true).2 ∧
    (create_and_map_file true true false).1 = some .ioError ∧
    CEv.closeC ∈ (create_and_map_file true true false).2 := by
  decide

/-! ### C5: round-trip through the two drivers.

The codec step functions themselves live in zlib / liblz4, outside this
repository; the spec treats them as external collaborators (sections 1,
4.3 and 6).  To settle the round-trip claim against the drivers that are
in the repository, the codec pair is modelled from the spec's adapter
contract and its Frame/stream glossary entry: a chunked, resumable codec
whose frame is self-delimiting (a header recording the content size, as
an LZ4 frame records contentSize, followed by the payload), which never
consumes or produces more than the offered views, consumes input eagerly
into internal state the way a deflate stream does, and reports finished
exactly when the whole frame has been written/read. -/

/-- Internal state of the model compressor: bytes consumed but not yet
emitted, whether the frame header has been written, and the running total
of consumed input. -/
structure CompState where
  buffer : List Nat
  headerEmitted : Bool
  consumedTotal : Nat

/-- Modelled from the spec: the compression step of the external codec
(do_compress / deflate in the C sources).  It consumes the whole offered
input view into its internal buffer, emits the one-header frame
(header value = content size) followed by buffered payload as far as the
offered output capacity allows, and reports finished once the header is
out, the buffer is drained and the declared content size has been
consumed. -/
def compStep (n : Nat) (st : CompState) (v : List Nat) (cap : Nat) :
    CodecOut CompState :=
  let buf := st.buffer ++ v
  let ct := st.consumedTotal + v.length
  if st.headerEmitted = true then
    .next ⟨buf.drop cap, true, ct⟩ v.length (buf.take cap)
      (decide (buf.length ≤ cap ∧ ct = n))
  else if cap = 0 then
    .next ⟨buf, false, ct⟩ v.length [] false
  else
    .next ⟨buf.drop (cap - 1), true, ct⟩ v.length (n :: buf.take (cap - 1))
      (decide (buf.length ≤ cap - 1 ∧ ct = n))

/-- The model compressor as a transform_mapped_file codec. -/
def compCodec (n : Nat) : Codec CompState := compStep n

/-- Modelled from the spec: the decompression step of the external codec
(inflate / LZ4F_decompress in the C sources).  State none: the frame
header has not been read yet; state some rem: rem payload bytes remain.
It copies as much payload as the views allow and reports finished exactly
when the recorded content size has been produced. -/
def decStep (st : Option Nat) (v : List Nat) (cap : Nat) :
    Option Nat × Nat × List Nat × Bool :=
  match st with
  | none =>
    match v with
    | [] => (none, 0, [], false)
    | h :: rest =>
      let c := min (min rest.length cap) h
      (some (h - c), 1 + c, rest.take c, decide (h - c = 0))
  | some rem =>
    let c := min (min v.length cap) rem
    (some (rem - c), c, v.take c, decide (rem - c = 0))

/-- The adapter wrapper around the model decompressor, computing its views
exactly as inflate.c's run does (src/src/inflate.c lines 114-150):
next_in/next_out at mapping base plus first-unused offset, avail capped at
UINT_MAX, offsets and output_bytes_written advanced by the amounts the
codec reports. -/
def inflRun : AppAdapter (Option Nat) := fun st io =>
  let inPtr := io.input.moff + io.inOff
  let inAvail := min (io.input.msize - io.inOff) UINT_MAX
  let outPtr := io.output.moff + io.outOff
  let outAvail := min (io.output.msize - io.outOff) UINT_MAX
  let r := decStep st (readBytes io.input.data inPtr inAvail) outAvail
  .next r.1
    ⟨io.input,
      ⟨io.output.moff, io.output.msize, io.output.flen,
        overwrite io.output.data outPtr r.2.2.1⟩,
      io.inOff + r.2.1, io.outOff + r.2.2.1.length,
      io.written + r.2.2.1.length⟩
    r.2.2.2

/-- The environment in which every syscall succeeds. -/
def envAll : Nat → Bool := fun _ => true

/-- The compression transform end to end: the input file mapped whole, the
output created at max_compressed_size of the input length (deflate.c main),
driven by transform_mapped_file; on success the first final-length bytes of
the output file. -/
def compressFile (bs : List Nat) : Option (List Nat) :=
  match transform_mapped_file (compCodec bs.length) envAll (2 * bs.length + 2)
      (tmfInit ⟨[], false, 0⟩
        ⟨0, bs.length, bs.length, fun i => bs.getD i 0⟩
        ⟨0, max_compressed_size bs.length, max_compressed_size bs.length,
          fun _ => 0⟩) with
  | .ok sf => some (readBytes sf.output.data 0 sf.output.len)
  | _ => none

/-- The decompression transform end to end: output sized at the input file
length (inflate.c's size), driven by run_transformer_app; on success the
output file's bytes up to its truncated length. -/
def decompressFile (cs : List Nat) : Option (List Nat) :=
  match run_transformer_app inflRun envAll (cs.length + 2)
      ⟨none, ⟨⟨0, cs.length, cs.length, fun i => cs.getD i 0⟩,
        ⟨0, cs.length, cs.length, fun _ => 0⟩, 0, 0, 0⟩, 0, []⟩ with
  | .ok sf => some (readBytes sf.io.output.data 0 sf.io.output.flen)
  | _ => none

theorem readBytes_ext (d : Nat → Nat) (l : List Nat)
    (h : ∀ i, i < l.length → d i = l.getD i 0) :
    readBytes d 0 l.length = l := by
  apply List.ext_getElem
  · simp [readBytes]
  · intro i h1 h2
    simp only [readBytes, List.getElem_map, List.getElem_range, Nat.zero_add]
    rw [h i h2, List.getD_eq_getElem]

theorem readBytes_eq_slice (bs : List Nat) (pos len : Nat)
    (h : pos + len ≤ bs.length) :
    readBytes (fun i => bs.getD i 0) pos len = (bs.drop pos).take len := by
  apply List.ext_getElem
  · simp only [readBytes, List.length_map, List.length_range, List.length_take,
      List.length_drop]
    omega
  · intro i h1 h2
    simp only [readBytes, List.getElem_map, List.getElem_range,
      List.getElem_take, List.getElem_drop]
    rw [List.getD_eq_getElem]

theorem unmap_envAll_eq (ctr : Nat) (file : FAM) (off : Nat) (h1 : 1 ≤ off)
    (h2 : off ≤ file.size) :
    unmap_unused_pages envAll ctr file off =
      ⟨none,
       ⟨file.front + (off - 1) / UNMAP_SPAN_SIZE * UNMAP_SPAN_SIZE,
        file.size - (off - 1) / UNMAP_SPAN_SIZE * UNMAP_SPAN_SIZE,
        file.len, file.data⟩,
       off - (off - 1) / UNMAP_SPAN_SIZE * UNMAP_SPAN_SIZE,
       (if (off - 1) / UNMAP_SPAN_SIZE = 0 then ctr else ctr + 1),
       (off - 1) / UNMAP_SPAN_SIZE * UNMAP_SPAN_SIZE⟩ := by
  have hws : wrapSub off 1 = off - 1 := by
    unfold wrapSub
    simp [h1]
  unfold unmap_unused_pages
  dsimp only
  rw [hws]
  by_cases h0 : (off - 1) / UNMAP_SPAN_SIZE = 0
  · rw [if_pos h0, if_pos h0]
    simp [h0]
  · rw [if_neg h0, if_neg h0]
    have hb : (off - 1) / UNMAP_SPAN_SIZE * UNMAP_SPAN_SIZE ≤ file.size := by
      have := Nat.div_mul_le_self (off - 1) UNMAP_SPAN_SIZE
      omega
    rw [if_pos ⟨hb, rfl⟩]

theorem unmap2_envAll_eq (ctr : Nat) (file : FAM2) (off : Nat) (h1 : 1 ≤ off)
    (h2 : off ≤ file.msize) :
    unmap_unused_pages2 envAll ctr file off =
      ⟨none,
       ⟨file.moff + (off - 1) / UNMAP_SPAN_SIZE * UNMAP_SPAN_SIZE,
        file.msize - (off - 1) / UNMAP_SPAN_SIZE * UNMAP_SPAN_SIZE,
        file.flen, file.data⟩,
       off - (off - 1) / UNMAP_SPAN_SIZE * UNMAP_SPAN_SIZE,
       (if (off - 1) / UNMAP_SPAN_SIZE = 0 then ctr else ctr + 1),
       (off - 1) / UNMAP_SPAN_SIZE * UNMAP_SPAN_SIZE⟩ := by
  have hws : wrapSub off 1 = off - 1 := by
    unfold wrapSub
    simp [h1]
  unfold unmap_unused_pages2
  dsimp only
  rw [hws]
  by_cases h0 : (off - 1) / UNMAP_SPAN_SIZE = 0
  · rw [if_pos h0, if_pos h0]
    simp [h0]
  · rw [if_neg h0, if_neg h0]
    have hb : (off - 1) / UNMAP_SPAN_SIZE * UNMAP_SPAN_SIZE ≤ file.msize := by
      have := Nat.div_mul_le_self (off - 1) UNMAP_SPAN_SIZE
      omega
    rw [if_pos ⟨hb, rfl⟩]

theorem expand_envAll_eq (ctr : Nat) (file : FAM) (cur inUse : Nat)
    (hg : ¬ file.size < inUse) :
    expand_output_mapping envAll ctr file cur inUse =
      ⟨none, ⟨file.front, file.size + cur, cur + cur, file.data⟩, cur + cur,
        ctr + 2, true⟩ := by
  unfold expand_output_mapping
  rw [if_neg hg]
  rfl

theorem expand2_envAll_eq (ctr : Nat) (file : FAM2) (firstUnused : Nat)
    (hg : ¬ file.msize < firstUnused) :
    expand_output_mapping2 envAll ctr file firstUnused =
      ⟨none, ⟨file.moff, file.msize + file.flen, file.flen + file.flen,
        file.data⟩, ctr + 2, true⟩ := by
  unfold expand_output_mapping2
  rw [if_neg hg]
  rfl

theorem transform_iter_done_eq (c : Codec σ) (env : Nat → Bool)
    (s : TmfState σ) (cs' : σ) (con : Nat) (out : List Nat)
    (hcall : c s.cs (readBytes s.input.data (s.input.front + s.inOff)
        (min (s.input.size - s.inOff) UINT_MAX))
        (min (s.output.size - s.outOff) UINT_MAX) = .next cs' con out true) :
    transform_iter c env s = .done
      ⟨cs', s.input,
       ⟨s.output.front, s.output.size, s.output.len,
        overwrite s.output.data (s.output.front + s.outOff) out⟩,
       s.inOff + con, s.outOff + out.length, s.finalLen + out.length,
       s.currentLen, s.ctr,
       s.trace ++ [Ev.call (s.input.front + s.inOff)
          (min (s.input.size - s.inOff) UINT_MAX)
          (s.output.front + s.outOff)
          (min (s.output.size - s.outOff) UINT_MAX),
        Ev.ret con out.length true]⟩ := by
  unfold transform_iter tmfViews
  dsimp only
  rw [hcall]
  rfl

/-- The state after one fully successful continuing iteration of
transform_mapped_file under the all-success environment: codec write and
offset advance, both unmaps, and the (always-performed) expansion. -/
def tmfContState (s : TmfState σ) (cs' : σ) (con : Nat) (out : List Nat) :
    TmfState σ :=
  ⟨cs',
   ⟨s.input.front + (s.inOff + con - 1) / UNMAP_SPAN_SIZE * UNMAP_SPAN_SIZE,
    s.input.size - (s.inOff + con - 1) / UNMAP_SPAN_SIZE * UNMAP_SPAN_SIZE,
    s.input.len, s.input.data⟩,
   ⟨s.output.front +
      (s.outOff + out.length - 1) / UNMAP_SPAN_SIZE * UNMAP_SPAN_SIZE,
    s.output.size -
      (s.outOff + out.length - 1) / UNMAP_SPAN_SIZE * UNMAP_SPAN_SIZE +
      s.currentLen,
    s.currentLen + s.currentLen,
    overwrite s.output.data (s.output.front + s.outOff) out⟩,
   s.inOff + con - (s.inOff + con - 1) / UNMAP_SPAN_SIZE * UNMAP_SPAN_SIZE,
   s.outOff + out.length -
     (s.outOff + out.length - 1) / UNMAP_SPAN_SIZE * UNMAP_SPAN_SIZE,
   s.finalLen + out.length,
   s.currentLen + s.currentLen,
   (if (s.outOff + out.length - 1) / UNMAP_SPAN_SIZE = 0 then
      (if (s.inOff + con - 1) / UNMAP_SPAN_SIZE = 0 then s.ctr else s.ctr + 1)
    else
      (if (s.inOff + con - 1) / UNMAP_SPAN_SIZE = 0 then s.ctr
       else s.ctr + 1) + 1) + 2,
   s.trace ++
     [Ev.call (s.input.front + s.inOff) (min (s.input.size - s.inOff) UINT_MAX)
       (s.output.front + s.outOff) (min (s.output.size - s.outOff) UINT_MAX),
      Ev.ret con out.length false] ++
     [Ev.unmapIn ((s.inOff + con - 1) / UNMAP_SPAN_SIZE * UNMAP_SPAN_SIZE)] ++
     [Ev.unmapOut
       ((s.outOff + out.length - 1) / UNMAP_SPAN_SIZE * UNMAP_SPAN_SIZE)] ++
     [Ev.grow (s.currentLen + s.currentLen)]⟩

theorem transform_iter_cont_eq (c : Codec σ) (s : TmfState σ) (cs' : σ)
    (con : Nat) (out : List Nat)
    (hcall : c s.cs (readBytes s.input.data (s.input.front + s.inOff)
        (min (s.input.size - s.inOff) UINT_MAX))
        (min (s.output.size - s.outOff) UINT_MAX) = .next cs' con out false)
    (hi1 : 1 ≤ s.inOff + con) (hi2 : s.inOff + con ≤ s.input.size)
    (ho1 : 1 ≤ s.outOff + out.length)
    (ho2 : s.outOff + out.length ≤ s.output.size) :
    transform_iter c envAll s = .cont (tmfContState s cs' con out) := by
  unfold tmfContState
  unfold transform_iter tmfViews
  dsimp only
  rw [hcall]
  dsimp only [Bool.false_eq_true, if_false]
  rw [unmap_envAll_eq s.ctr s.input (s.inOff + con) hi1 hi2]
  dsimp only
  rw [unmap_envAll_eq _
    ⟨s.output.front, s.output.size, s.output.len,
      overwrite s.output.data (s.output.front + s.outOff) out⟩
    (s.outOff + out.length) ho1 ho2]
  dsimp only
  have hb2 : (s.outOff + out.length - 1) / UNMAP_SPAN_SIZE * UNMAP_SPAN_SIZE ≤
      s.outOff + out.length - 1 := Nat.div_mul_le_self _ _
  have hg : ¬ ((s.output.size -
      (s.outOff + out.length - 1) / UNMAP_SPAN_SIZE * UNMAP_SPAN_SIZE) <
      (s.outOff + out.length -
        (s.outOff + out.length - 1) / UNMAP_SPAN_SIZE * UNMAP_SPAN_SIZE)) := by
    omega
  rw [expand_envAll_eq _ _ s.currentLen _ hg]
  dsimp only
  rfl

theorem transform_run_cont (c : Codec σ) (env : Nat → Bool) (fuel : Nat)
    (s s' : TmfState σ) (h : transform_iter c env s = .cont s') :
    transform_mapped_file c env (fuel + 1) s =
      transform_mapped_file c env fuel s' := by
  have hd : transform_mapped_file c env (fuel + 1) s =
      match transform_iter c env s with
      | .fail s' e => .fail s' e
      | .cont s' => transform_mapped_file c env fuel s'
      | .done s' =>
        if env s'.ctr = true then
          .ok { s' with
            output := ⟨s'.output.front, s'.output.size, s'.finalLen,
              s'.output.data⟩,
            ctr := s'.ctr + 1,
            trace := s'.trace ++ [Ev.trunc s'.finalLen] }
        else .fail { s' with ctr := s'.ctr + 1 } .ioError := rfl
  rw [hd, h]

theorem transform_run_done (c : Codec σ) (fuel : Nat) (s s1 : TmfState σ)
    (h : transform_iter c envAll s = .done s1) :
    transform_mapped_file c envAll (fuel + 1) s =
      .ok ⟨s1.cs, s1.input,
        ⟨s1.output.front, s1.output.size, s1.finalLen, s1.output.data⟩,
        s1.inOff, s1.outOff, s1.finalLen, s1.currentLen, s1.ctr + 1,
        s1.trace ++ [Ev.trunc s1.finalLen]⟩ := by
  have hd : transform_mapped_file c envAll (fuel + 1) s =
      match transform_iter c envAll s with
      | .fail s' e => .fail s' e
      | .cont s' => transform_mapped_file c envAll fuel s'
      | .done s' =>
        if envAll s'.ctr = true then
          .ok { s' with
            output := ⟨s'.output.front, s'.output.size, s'.finalLen,
              s'.output.data⟩,
            ctr := s'.ctr + 1,
            trace := s'.trace ++ [Ev.trunc s'.finalLen] }
        else .fail { s' with ctr := s'.ctr + 1 } .ioError := rfl
  rw [hd, h]
  rfl

/-- The state after one fully successful iteration of the
run_transformer_app loop under the all-success environment (both unmaps
succeed, the expansion is always performed). -/
def appContState (s : AppState σ) (cs' : σ) (io' : IOState) : AppState σ :=
  ⟨cs',
   ⟨⟨io'.input.moff + (io'.inOff - 1) / UNMAP_SPAN_SIZE * UNMAP_SPAN_SIZE,
     io'.input.msize - (io'.inOff - 1) / UNMAP_SPAN_SIZE * UNMAP_SPAN_SIZE,
     io'.input.flen, io'.input.data⟩,
    ⟨io'.output.moff + (io'.outOff - 1) / UNMAP_SPAN_SIZE * UNMAP_SPAN_SIZE,
     io'.output.msize - (io'.outOff - 1) / UNMAP_SPAN_SIZE * UNMAP_SPAN_SIZE +
       io'.output.flen,
     io'.output.flen + io'.output.flen, io'.output.data⟩,
    io'.inOff - (io'.inOff - 1) / UNMAP_SPAN_SIZE * UNMAP_SPAN_SIZE,
    io'.outOff - (io'.outOff - 1) / UNMAP_SPAN_SIZE * UNMAP_SPAN_SIZE,
    io'.written⟩,
   (if (io'.outOff - 1) / UNMAP_SPAN_SIZE = 0 then
      (if (io'.inOff - 1) / UNMAP_SPAN_SIZE = 0 then s.ctr else s.ctr + 1)
    else
      (if (io'.inOff - 1) / UNMAP_SPAN_SIZE = 0 then s.ctr
       else s.ctr + 1) + 1) + 2,
   s.trace ++
     [Ev.unmapIn ((io'.inOff - 1) / UNMAP_SPAN_SIZE * UNMAP_SPAN_SIZE)] ++
     [Ev.unmapOut ((io'.outOff - 1) / UNMAP_SPAN_SIZE * UNMAP_SPAN_SIZE)] ++
     [Ev.grow (io'.output.flen + io'.output.flen)]⟩

theorem app_iter_cont_eq (a : AppAdapter σ) (s : AppState σ) (cs' : σ)
    (io' : IOState) (fin : Bool)
    (hcall : a s.cs s.io = .next cs' io' fin)
    (hi1 : 1 ≤ io'.inOff) (hi2 : io'.inOff ≤ io'.input.msize)
    (ho1 : 1 ≤ io'.outOff) (ho2 : io'.outOff ≤ io'.output.msize) :
    app_iter a envAll s = .cont (appContState s cs' io') fin := by
  unfold appContState app_iter
  dsimp only
  rw [hcall]
  dsimp only
  rw [unmap2_envAll_eq s.ctr io'.input io'.inOff hi1 hi2]
  dsimp only
  rw [unmap2_envAll_eq _ io'.output io'.outOff ho1 ho2]
  dsimp only
  have hb2 : (io'.outOff - 1) / UNMAP_SPAN_SIZE * UNMAP_SPAN_SIZE ≤
      io'.outOff - 1 := Nat.div_mul_le_self _ _
  have hg : ¬ ((io'.output.msize -
      (io'.outOff - 1) / UNMAP_SPAN_SIZE * UNMAP_SPAN_SIZE) <
      (io'.outOff - (io'.outOff - 1) / UNMAP_SPAN_SIZE * UNMAP_SPAN_SIZE)) := by
    omega
  rw [expand2_envAll_eq _ _ _ hg]
  dsimp only
  rfl

theorem app_loop_cont (a : AppAdapter σ) (env : Nat → Bool) (fuel : Nat)
    (s s' : AppState σ) (fin : Bool)
    (h : app_iter a env s = .cont s' fin) :
    app_loop a env (fuel + 1) s false = app_loop a env fuel s' fin := by
  have hd : app_loop a env (fuel + 1) s false =
      match app_iter a env s with
      | .fail s' e => .fail s' e
      | .cont s' fin => app_loop a env fuel s' fin := rfl
  rw [hd, h]

theorem app_loop_finish (a : AppAdapter σ) (fuel : Nat) (s : AppState σ) :
    app_loop a envAll fuel s true =
      .ok ⟨s.cs,
        ⟨s.io.input,
         ⟨s.io.output.moff, s.io.output.msize, s.io.written,
          s.io.output.data⟩,
         s.io.inOff, s.io.outOff, s.io.written⟩,
        s.ctr + 1, s.trace ++ [Ev.trunc s.io.written]⟩ := by
  cases fuel <;> rfl

theorem drop_min_length (l : List Nat) (k : Nat) :
    l.drop (min k l.length) = l.drop k := by
  rcases Nat.le_total k l.length with h | h
  · rw [min_eq_left h]
  · rw [min_eq_right h, List.drop_length, List.drop_eq_nil_of_le h]

theorem take_min_length (l : List Nat) (k : Nat) :
    l.take (min k l.length) = l.take k := by
  rcases Nat.le_total k l.length with h | h
  · rw [min_eq_left h]
  · rw [min_eq_right h, List.take_length, List.take_of_length_le h]

theorem slice_append (bs : List Nat) (e ct d : Nat) (h1 : e ≤ ct)
    (h2 : ct ≤ bs.length) :
    (bs.take ct).drop e ++ (bs.drop ct).take d =
      (bs.take (ct + d)).drop e := by
  rw [List.take_add, List.drop_append_of_le_length]
  rw [List.length_take]
  omega

theorem slice_getD (bs : List Nat) (ct e j : Nat) (h1 : e + j < ct)
    (h2 : ct ≤ bs.length) :
    ((bs.take ct).drop e).getD j 0 = bs.getD (e + j) 0 := by
  have hlen : j < ((bs.take ct).drop e).length := by
    simp only [List.length_drop, List.length_take]
    omega
  rw [List.getD_eq_getElem _ _ hlen,
    List.getD_eq_getElem _ _ (by omega : e + j < bs.length)]
  simp only [List.getElem_drop, List.getElem_take]

theorem getD_take (l : List Nat) (k j : Nat) (h : j < k) :
    (l.take k).getD j 0 = l.getD j 0 := by
  rcases Nat.lt_or_ge j l.length with hl | hl
  · rw [List.getD_eq_getElem _ _ (by simp [List.length_take]; omega),
      List.getD_eq_getElem _ _ hl]
    simp [List.getElem_take]
  · rw [List.getD_eq_default _ _ (by simp [List.length_take]; omega),
      List.getD_eq_default _ _ hl]

theorem overwrite_lt (d : Nat → Nat) (pos : Nat) (chunk : List Nat) (i : Nat)
    (h : i < pos) : overwrite d pos chunk i = d i := by
  unfold overwrite
  rw [if_neg]
  omega

theorem overwrite_in (d : Nat → Nat) (pos : Nat) (chunk : List Nat) (i : Nat)
    (h1 : pos ≤ i) (h2 : i < pos + chunk.length) :
    overwrite d pos chunk i = chunk.getD (i - pos) 0 := by
  unfold overwrite
  rw [if_pos ⟨h1, h2⟩]

theorem compCodec_step (n : Nat) (st : CompState) (v : List Nat) (cap : Nat)
    (hh : st.headerEmitted = true) :
    compCodec n st v cap =
      .next ⟨(st.buffer ++ v).drop cap, true, st.consumedTotal + v.length⟩
        v.length ((st.buffer ++ v).take cap)
        (decide ((st.buffer ++ v).length ≤ cap ∧
          st.consumedTotal + v.length = n)) := by
  unfold compCodec compStep
  rw [hh]
  rfl

/-- The invariant of the compress drive loop after the first (header)
iteration: consumed-total tracking, buffer as the consumed-but-unemitted
slice, and the output file holding the header byte and the emitted payload
prefix. -/
structure CInvH (bs : List Nat) (s : TmfState CompState) : Prop where
  hid : s.input.data = fun i => bs.getD i 0
  hifs : s.input.front + s.input.size = bs.length
  hio : s.inOff ≤ s.input.size
  hio1 : 1 ≤ s.inOff
  hct : s.cs.consumedTotal = s.input.front + s.inOff
  hhdr : s.cs.headerEmitted = true
  hofs : s.output.front + s.output.size = s.output.len
  hoo1 : 1 ≤ s.outOff
  hcap : s.outOff < s.output.size
  holen : s.output.len = s.currentLen
  hcl : 1 ≤ s.currentLen
  hfl : s.finalLen = s.output.front + s.outOff
  hfl1 : 1 ≤ s.finalLen
  hbound : s.finalLen - 1 ≤ s.cs.consumedTotal
  hbuf : s.cs.buffer = (bs.take s.cs.consumedTotal).drop (s.finalLen - 1)
  hd0 : s.output.data 0 = bs.length
  hdp : ∀ i, i < s.finalLen - 1 → s.output.data (1 + i) = bs.getD i 0

theorem comp_run_done (bs : List Nat) (fuel : Nat)
    (s s1 : TmfState CompState)
    (hdone : transform_iter (compCodec bs.length) envAll s = .done s1)
    (hlen : s1.finalLen = bs.length + 1)
    (h0 : s1.output.data 0 = bs.length)
    (hp : ∀ i, i < bs.length → s1.output.data (1 + i) = bs.getD i 0) :
    (transform_mapped_file (compCodec bs.length) envAll (fuel + 1) s).onOk
      (fun sf => sf.output.len = bs.length + 1 ∧
        readBytes sf.output.data 0 (bs.length + 1) = bs.length :: bs) := by
  rw [transform_run_done _ fuel s s1 hdone]
  refine ⟨hlen, ?_⟩
  have hlc : (bs.length :: bs).length = bs.length + 1 := by simp
  rw [← hlc]
  apply readBytes_ext
  intro i hi
  cases i with
  | zero => simpa using h0
  | succ j =>
    rw [hlc] at hi
    have := hp j (by omega)
    rw [Nat.add_comm 1 j] at this
    simpa using this

theorem UINT_MAX_pos : 1 ≤ UINT_MAX := by decide

set_option maxHeartbeats 1000000 in
theorem comp_loop (bs : List Nat) :
    ∀ (fuel : Nat) (s : TmfState CompState), CInvH bs s →
    2 * (bs.length - s.cs.consumedTotal) + s.cs.buffer.length < fuel →
    (transform_mapped_file (compCodec bs.length) envAll fuel s).onOk
      (fun sf => sf.output.len = bs.length + 1 ∧
        readBytes sf.output.data 0 (bs.length + 1) = bs.length :: bs) := by
  intro fuel
  induction fuel with
  | zero => intro s _ hm; omega
  | succ fuel ih =>
    intro s hI hm
    obtain ⟨hid, hifs, hio, hio1, hct, hhdr, hofs, hoo1, hcap, holen, hcl,
      hfl, hfl1, hbound, hbuf, hd0, hdp⟩ := hI
    have hctn : s.cs.consumedTotal ≤ bs.length := by omega
    have hvle : s.input.front + s.inOff + min (s.input.size - s.inOff) UINT_MAX
        ≤ bs.length := by omega
    have hv : readBytes s.input.data (s.input.front + s.inOff)
        (min (s.input.size - s.inOff) UINT_MAX) =
        (bs.drop (s.input.front + s.inOff)).take
          (min (s.input.size - s.inOff) UINT_MAX) := by
      rw [hid]
      exact readBytes_eq_slice bs _ _ hvle
    have hvlen : (readBytes s.input.data (s.input.front + s.inOff)
        (min (s.input.size - s.inOff) UINT_MAX)).length =
        min (s.input.size - s.inOff) UINT_MAX := readBytes_length _ _ _
    have hbuflen : s.cs.buffer.length =
        s.cs.consumedTotal - (s.finalLen - 1) := by
      rw [hbuf]
      simp only [List.length_drop, List.length_take]
      omega
    have hnb : s.cs.buffer ++ readBytes s.input.data (s.input.front + s.inOff)
        (min (s.input.size - s.inOff) UINT_MAX) =
        (bs.take (s.cs.consumedTotal + min (s.input.size - s.inOff) UINT_MAX)
          ).drop (s.finalLen - 1) := by
      rw [hbuf, hv, ← hct]
      exact slice_append bs _ _ _ hbound hctn
    have hnblen : (s.cs.buffer ++ readBytes s.input.data
        (s.input.front + s.inOff)
        (min (s.input.size - s.inOff) UINT_MAX)).length =
        s.cs.consumedTotal + min (s.input.size - s.inOff) UINT_MAX -
          (s.finalLen - 1) := by
      simp only [List.length_append, hbuflen, hvlen]
      omega
    have hcall0 := compCodec_step bs.length s.cs
      (readBytes s.input.data (s.input.front + s.inOff)
        (min (s.input.size - s.inOff) UINT_MAX))
      (min (s.output.size - s.outOff) UINT_MAX) hhdr
    rw [hvlen] at hcall0
    by_cases hfin : ((s.cs.buffer ++ readBytes s.input.data
        (s.input.front + s.inOff)
        (min (s.input.size - s.inOff) UINT_MAX)).length ≤
        min (s.output.size - s.outOff) UINT_MAX ∧
        s.cs.consumedTotal + min (s.input.size - s.inOff) UINT_MAX =
          bs.length)
    · -- the codec reports finished: one more write, then done and truncate
      rw [decide_eq_true hfin] at hcall0
      have hdone := transform_iter_done_eq (compCodec bs.length) envAll s _ _ _
        hcall0
      have houtlen : ((s.cs.buffer ++ readBytes s.input.data
          (s.input.front + s.inOff)
          (min (s.input.size - s.inOff) UINT_MAX)).take
          (min (s.output.size - s.outOff) UINT_MAX)).length =
          bs.length - (s.finalLen - 1) := by
        simp only [List.length_take, hnblen]
        omega
      apply comp_run_done bs fuel s _ hdone
      · -- final length is bs.length + 1
        dsimp only
        rw [houtlen]
        omega
      · -- header byte intact at position 0
        dsimp only
        rw [overwrite_lt _ _ _ _ (by omega)]
        exact hd0
      · -- payload bytes 1..bs.length
        dsimp only
        intro i hilt
        rcases Nat.lt_or_ge i (s.finalLen - 1) with hi | hi
        · rw [overwrite_lt _ _ _ _ (by omega)]
          exact hdp i hi
        · rw [overwrite_in _ _ _ _ (by omega) (by rw [houtlen]; omega)]
          have hfix : 1 + i - (s.output.front + s.outOff) =
              i - (s.finalLen - 1) := by omega
          rw [hfix]
          rw [getD_take _ _ _ (by omega), hnb]
          rw [slice_getD bs _ _ _ (by omega) (by omega)]
          congr 1
          omega
    · -- the codec continues: unmaps, expansion, next iteration
      rw [decide_eq_false hfin] at hcall0
      have hb1 : (s.inOff + min (s.input.size - s.inOff) UINT_MAX - 1) /
          UNMAP_SPAN_SIZE * UNMAP_SPAN_SIZE ≤
          s.inOff + min (s.input.size - s.inOff) UINT_MAX - 1 :=
        Nat.div_mul_le_self _ _
      have houtlen : ((s.cs.buffer ++ readBytes s.input.data
          (s.input.front + s.inOff)
          (min (s.input.size - s.inOff) UINT_MAX)).take
          (min (s.output.size - s.outOff) UINT_MAX)).length =
          min (min (s.output.size - s.outOff) UINT_MAX)
            (s.cs.consumedTotal + min (s.input.size - s.inOff) UINT_MAX -
              (s.finalLen - 1)) := by
        simp only [List.length_take, hnblen]
      have hcont := transform_iter_cont_eq (compCodec bs.length) s _ _ _
        hcall0 (by omega) (by omega)
        (by rw [houtlen]; omega) (by rw [houtlen]; omega)
      rw [transform_run_cont _ _ fuel s _ hcont]
      have hb2 : ((s.outOff + ((s.cs.buffer ++ readBytes s.input.data
          (s.input.front + s.inOff)
          (min (s.input.size - s.inOff) UINT_MAX)).take
          (min (s.output.size - s.outOff) UINT_MAX)).length - 1) /
          UNMAP_SPAN_SIZE * UNMAP_SPAN_SIZE) ≤
          s.outOff + ((s.cs.buffer ++ readBytes s.input.data
          (s.input.front + s.inOff)
          (min (s.input.size - s.inOff) UINT_MAX)).take
          (min (s.output.size - s.outOff) UINT_MAX)).length - 1 :=
        Nat.div_mul_le_self _ _
      apply ih
      · refine ⟨?_, ?_, ?_, ?_, ?_, ?_, ?_, ?_, ?_, ?_, ?_, ?_, ?_, ?_, ?_,
          ?_, ?_⟩ <;> dsimp only [tmfContState]
        · exact hid
        · omega
        · omega
        · omega
        · omega
        · rw [houtlen] at hb2 ⊢
          omega
        · rw [houtlen] at hb2 ⊢
          omega
        · rw [houtlen] at hb2 ⊢
          omega
        · omega
        · rw [houtlen] at hb2 ⊢
          omega
        · rw [houtlen] at hb2 ⊢
          omega
        · rw [houtlen] at hb2 ⊢
          omega
        · -- the buffer is still the consumed-but-unemitted slice
          rw [← drop_min_length (s.cs.buffer ++ readBytes s.input.data
            (s.input.front + s.inOff)
            (min (s.input.size - s.inOff) UINT_MAX))
            (min (s.output.size - s.outOff) UINT_MAX)]
          rw [hnb, List.drop_drop]
          simp only [List.length_take, List.length_drop]
          congr 1
          omega
        · rw [overwrite_lt _ _ _ _ (by omega)]
          exact hd0
        · intro i hilt
          rcases Nat.lt_or_ge i (s.finalLen - 1) with hi | hi
          · rw [overwrite_lt _ _ _ _ (by omega)]
            exact hdp i hi
          · rw [overwrite_in _ _ _ _ (by omega) (by omega)]
            have hfix : 1 + i - (s.output.front + s.outOff) =
                i - (s.finalLen - 1) := by omega
            rw [hfix]
            rw [getD_take _ _ _ (by rw [houtlen] at hilt; omega), hnb]
            rw [slice_getD bs _ _ _ (by rw [houtlen] at hilt; omega)
              (by omega)]
            congr 1
            omega
      · dsimp only [tmfContState]
        simp only [List.length_drop]
        rw [houtlen] at hb2
        have hU := UINT_MAX_pos
        omega


theorem getD_drop (l : List Nat) (k j : Nat) (h : k + j < l.length) :
    (l.drop k).getD j 0 = l.getD (k + j) 0 := by
  rw [List.getD_eq_getElem _ _ (by simp only [List.length_drop]; omega),
    List.getD_eq_getElem _ _ h]
  simp [List.getElem_drop]

theorem TmfOut.onOk_mono {σ : Type} {X : TmfOut σ} {p q : TmfState σ → Prop}
    (h : X.onOk p) (hpq : ∀ s, p s → q s) : X.onOk q := by
  cases X with
  | ok s => exact hpq s h
  | fail s e => exact h.elim
  | fuelOut => exact h.elim

theorem comp_correct (bs : List Nat) :
    compressFile bs = some (bs.length :: bs) := by
  by_cases hn0 : bs.length = 0
  · obtain rfl := List.length_eq_zero.mp hn0
    rfl
  · have hn : 1 ≤ bs.length := by omega
    have hmn : bs.length ≤ max_compressed_size bs.length := by
      unfold max_compressed_size
      dsimp only
      split <;> omega
    have hU : 1 ≤ UINT_MAX := UINT_MAX_pos
    have hv : readBytes (fun i => bs.getD i 0) 0 (min bs.length UINT_MAX) =
        bs.take (min bs.length UINT_MAX) := by
      rw [readBytes_eq_slice bs 0 _ (by omega), List.drop_zero]
    have hvlen : (readBytes (fun i => bs.getD i 0) 0
        (min bs.length UINT_MAX)).length = min bs.length UINT_MAX :=
      readBytes_length _ _ _
    have hcap0 : ¬ (min (max_compressed_size bs.length) UINT_MAX = 0) := by
      omega
    have hcall0 : compCodec bs.length ⟨[], false, 0⟩
        (readBytes (fun i => bs.getD i 0) 0 (min bs.length UINT_MAX))
        (min (max_compressed_size bs.length) UINT_MAX) =
        .next ⟨(readBytes (fun i => bs.getD i 0) 0
            (min bs.length UINT_MAX)).drop
            (min (max_compressed_size bs.length) UINT_MAX - 1), true,
            0 + (readBytes (fun i => bs.getD i 0) 0
              (min bs.length UINT_MAX)).length⟩
          (readBytes (fun i => bs.getD i 0) 0 (min bs.length UINT_MAX)).length
          (bs.length :: (readBytes (fun i => bs.getD i 0) 0
            (min bs.length UINT_MAX)).take
            (min (max_compressed_size bs.length) UINT_MAX - 1))
          (decide ((readBytes (fun i => bs.getD i 0) 0
              (min bs.length UINT_MAX)).length ≤
              min (max_compressed_size bs.length) UINT_MAX - 1 ∧
            0 + (readBytes (fun i => bs.getD i 0) 0
              (min bs.length UINT_MAX)).length = bs.length)) := by
      unfold compCodec compStep
      dsimp only
      rw [if_neg (by decide : ¬ (false = true)), if_neg hcap0]
      simp only [List.nil_append]
    have hrun : (transform_mapped_file (compCodec bs.length) envAll
        (2 * bs.length + 2)
        (tmfInit ⟨[], false, 0⟩
          ⟨0, bs.length, bs.length, fun i => bs.getD i 0⟩
          ⟨0, max_compressed_size bs.length, max_compressed_size bs.length,
            fun _ => 0⟩)).onOk
        (fun sf => sf.output.len = bs.length + 1 ∧
          readBytes sf.output.data 0 (bs.length + 1) = bs.length :: bs) := by
      by_cases hfin : ((readBytes (fun i => bs.getD i 0) 0
          (min bs.length UINT_MAX)).length ≤
          min (max_compressed_size bs.length) UINT_MAX - 1 ∧
          0 + (readBytes (fun i => bs.getD i 0) 0
            (min bs.length UINT_MAX)).length = bs.length)
      · -- finished in one call
        rw [decide_eq_true hfin] at hcall0
        rw [hvlen] at hfin
        have hdone := transform_iter_done_eq (compCodec bs.length) envAll
          (tmfInit ⟨[], false, 0⟩
            ⟨0, bs.length, bs.length, fun i => bs.getD i 0⟩
            ⟨0, max_compressed_size bs.length, max_compressed_size bs.length,
              fun _ => 0⟩) _ _ _ hcall0
        have houtlen : (bs.length :: (readBytes (fun i => bs.getD i 0) 0
            (min bs.length UINT_MAX)).take
            (min (max_compressed_size bs.length) UINT_MAX - 1)).length =
            bs.length + 1 := by
          simp only [List.length_cons, List.length_take, hvlen]
          omega
        apply comp_run_done bs (2 * bs.length + 1) _ _ hdone
        · dsimp only [tmfInit]
          rw [houtlen]
          omega
        · dsimp only [tmfInit]
          rw [overwrite_in _ _ _ _ (by omega) (by rw [houtlen]; omega)]
          rfl
        · dsimp only [tmfInit]
          intro i hilt
          rw [overwrite_in _ _ _ _ (by omega) (by rw [houtlen]; omega)]
          have hfix : 1 + i - (0 + 0) = i + 1 := by omega
          rw [hfix]
          show ((readBytes (fun i => bs.getD i 0) 0
            (min bs.length UINT_MAX)).take
            (min (max_compressed_size bs.length) UINT_MAX - 1)).getD i 0 =
            bs.getD i 0
          rw [getD_take _ _ _ (by omega), hv, getD_take _ _ _ (by omega)]
      · -- at least one more iteration is needed
        rw [decide_eq_false hfin] at hcall0
        have houtlen : (bs.length :: (readBytes (fun i => bs.getD i 0) 0
            (min bs.length UINT_MAX)).take
            (min (max_compressed_size bs.length) UINT_MAX - 1)).length =
            1 + min (min (max_compressed_size bs.length) UINT_MAX - 1)
              (min bs.length UINT_MAX) := by
          simp only [List.length_cons, List.length_take, hvlen]
          omega
        have hcont := transform_iter_cont_eq (compCodec bs.length)
          (tmfInit ⟨[], false, 0⟩
            ⟨0, bs.length, bs.length, fun i => bs.getD i 0⟩
            ⟨0, max_compressed_size bs.length, max_compressed_size bs.length,
              fun _ => 0⟩) _ _ _ hcall0
          (by dsimp only [tmfInit]; omega)
          (by dsimp only [tmfInit]; omega)
          (by dsimp only [tmfInit]; rw [houtlen]; omega)
          (by dsimp only [tmfInit]; rw [houtlen]; omega)
        show (transform_mapped_file (compCodec bs.length) envAll
          (2 * bs.length + 1 + 1)
          (tmfInit ⟨[], false, 0⟩
            ⟨0, bs.length, bs.length, fun i => bs.getD i 0⟩
            ⟨0, max_compressed_size bs.length, max_compressed_size bs.length,
              fun _ => 0⟩)).onOk
          (fun sf => sf.output.len = bs.length + 1 ∧
            readBytes sf.output.data 0 (bs.length + 1) = bs.length :: bs)
        rw [transform_run_cont _ _ (2 * bs.length + 1) _ _ hcont]
        have hb1 : (min bs.length UINT_MAX - 1) / UNMAP_SPAN_SIZE *
            UNMAP_SPAN_SIZE ≤ min bs.length UINT_MAX - 1 :=
          Nat.div_mul_le_self _ _
        have hb2 : (1 + min (min (max_compressed_size bs.length) UINT_MAX - 1)
              (min bs.length UINT_MAX) - 1) / UNMAP_SPAN_SIZE *
              UNMAP_SPAN_SIZE ≤
            1 + min (min (max_compressed_size bs.length) UINT_MAX - 1)
              (min bs.length UINT_MAX) - 1 :=
          Nat.div_mul_le_self _ _
        apply comp_loop
        · refine ⟨?_, ?_, ?_, ?_, ?_, ?_, ?_, ?_, ?_, ?_, ?_, ?_, ?_, ?_, ?_,
            ?_, ?_⟩ <;> dsimp only [tmfContState, tmfInit] <;>
            (try simp only [Nat.zero_add, hvlen, houtlen])
          · omega
          · omega
          · omega
          · omega
          · omega
          · omega
          · omega
          · omega
          · omega
          · omega
          · omega
          · -- buffer description after the header iteration
            rw [hv, ← drop_min_length (bs.take (min bs.length UINT_MAX))
              (min (max_compressed_size bs.length) UINT_MAX - 1)]
            simp only [List.length_take]
            congr 1
            omega
          · rw [overwrite_in _ _ _ _ (by omega)
              (by simp only [List.length_cons]; omega)]
            rfl
          · intro i hilt
            rw [overwrite_in _ _ _ _ (by omega)
              (by simp only [List.length_cons, List.length_take, hvlen]; omega)]
            have hfix : 1 + i - 0 = i + 1 := by omega
            rw [hfix]
            show ((readBytes (fun i => bs.getD i 0) 0
              (min bs.length UINT_MAX)).take
              (min (max_compressed_size bs.length) UINT_MAX - 1)).getD i 0 =
              bs.getD i 0
            rw [getD_take _ _ _ (by omega), hv, getD_take _ _ _ (by omega)]
        · dsimp only [tmfContState, tmfInit]
          simp only [List.length_drop, hvlen]
          omega
    unfold compressFile
    have hres := TmfOut.onOk_mono hrun
      (fun sf hsf => show readBytes sf.output.data 0 sf.output.len =
        bs.length :: bs from by rw [hsf.1, hsf.2])
    revert hres
    cases transform_mapped_file (compCodec bs.length) envAll
        (2 * bs.length + 2)
        (tmfInit ⟨[], false, 0⟩
          ⟨0, bs.length, bs.length, fun i => bs.getD i 0⟩
          ⟨0, max_compressed_size bs.length, max_compressed_size bs.length,
            fun _ => 0⟩) with
    | ok sf => intro hres; exact congrArg some hres
    | fail sf e => intro hres; exact hres.elim
    | fuelOut => intro hres; exact hres.elim

/-- Assert a property of the final state of a successful app run. -/
def AppOut.onOk (r : AppOut σ) (p : AppState σ → Prop) : Prop :=
  match r with
  | .ok s => p s
  | _ => False

theorem AppOut.onOk_map {σ : Type} {X : AppOut σ} {p q : AppState σ → Prop}
    (h : X.onOk p) (hpq : ∀ s, p s → q s) : X.onOk q := by
  cases X with
  | ok s => exact hpq s h
  | fail s e => exact h.elim
  | fuelOut => exact h.elim

/-- Writing a further chunk of the payload at the first unwritten output
position keeps the whole written prefix equal to the source prefix. -/
theorem overwrite_prefix_data (bs l : List Nat) (d : Nat → Nat)
    (written c : Nat)
    (hl : ∀ j, j < c → l.getD j 0 = bs.getD (written + j) 0)
    (hd : ∀ i, i < written → d i = bs.getD i 0)
    (hst : c ≤ l.length) :
    ∀ i, i < written + c → overwrite d written (l.take c) i = bs.getD i 0 := by
  intro i hi
  rcases Nat.lt_or_ge i written with h | h
  · rw [overwrite_lt _ _ _ _ h]
    exact hd i h
  · rw [overwrite_in _ _ _ _ h
      (by simp only [List.length_take]; omega)]
    rw [getD_take _ _ _ (by omega), hl _ (by omega)]
    congr 1
    omega

/-- One call of the inflate adapter in the payload-copy state, written out
exactly as inflRun computes it. -/
theorem inflRun_some_eq (rem : Nat) (io : IOState) :
    inflRun (some rem) io = .next
      (some (rem - min (min (readBytes io.input.data
          (io.input.moff + io.inOff)
          (min (io.input.msize - io.inOff) UINT_MAX)).length
          (min (io.output.msize - io.outOff) UINT_MAX)) rem))
      ⟨io.input,
       ⟨io.output.moff, io.output.msize, io.output.flen,
        overwrite io.output.data (io.output.moff + io.outOff)
          ((readBytes io.input.data (io.input.moff + io.inOff)
            (min (io.input.msize - io.inOff) UINT_MAX)).take
            (min (min (readBytes io.input.data (io.input.moff + io.inOff)
              (min (io.input.msize - io.inOff) UINT_MAX)).length
              (min (io.output.msize - io.outOff) UINT_MAX)) rem))⟩,
       io.inOff + min (min (readBytes io.input.data
          (io.input.moff + io.inOff)
          (min (io.input.msize - io.inOff) UINT_MAX)).length
          (min (io.output.msize - io.outOff) UINT_MAX)) rem,
       io.outOff + ((readBytes io.input.data (io.input.moff + io.inOff)
          (min (io.input.msize - io.inOff) UINT_MAX)).take
          (min (min (readBytes io.input.data (io.input.moff + io.inOff)
            (min (io.input.msize - io.inOff) UINT_MAX)).length
            (min (io.output.msize - io.outOff) UINT_MAX)) rem)).length,
       io.written + ((readBytes io.input.data (io.input.moff + io.inOff)
          (min (io.input.msize - io.inOff) UINT_MAX)).take
          (min (min (readBytes io.input.data (io.input.moff + io.inOff)
            (min (io.input.msize - io.inOff) UINT_MAX)).length
            (min (io.output.msize - io.outOff) UINT_MAX)) rem)).length⟩
      (decide (rem - min (min (readBytes io.input.data
          (io.input.moff + io.inOff)
          (min (io.input.msize - io.inOff) UINT_MAX)).length
          (min (io.output.msize - io.outOff) UINT_MAX)) rem = 0)) := by
  unfold inflRun decStep
  dsimp only

/-- The invariant of the decompress drive loop after the first
(header-reading) iteration: the codec state records the outstanding
payload, the logical input offset sits one past the written count
(header byte plus payload), and the output file holds the produced
prefix of the source. -/
structure DInv (bs : List Nat) (s : AppState (Option Nat)) : Prop where
  hcs : s.cs = some (bs.length - s.io.written)
  hwb : s.io.written ≤ bs.length
  hind : s.io.input.data = fun i => (bs.length :: bs).getD i 0
  hiconn : s.io.input.moff + s.io.inOff = 1 + s.io.written
  hims : s.io.input.moff + s.io.input.msize = bs.length + 1
  hii1 : 1 ≤ s.io.inOff
  hiio : s.io.inOff ≤ s.io.input.msize
  hoconn : s.io.output.moff + s.io.outOff = s.io.written
  hoo1 : 1 ≤ s.io.outOff
  hocap : s.io.outOff < s.io.output.msize
  hofl : 1 ≤ s.io.output.flen
  houd : ∀ i, i < s.io.written → s.io.output.data i = bs.getD i 0

theorem dec_loop (bs : List Nat) :
    ∀ (fuel : Nat) (s : AppState (Option Nat)), DInv bs s →
    bs.length - s.io.written < fuel →
    (app_loop inflRun envAll fuel s false).onOk
      (fun sf => sf.io.output.flen = bs.length ∧
        readBytes sf.io.output.data 0 bs.length = bs) := by
  intro fuel
  induction fuel with
  | zero => intro s _ hm; omega
  | succ fuel ih =>
    intro s hI hm
    obtain ⟨hcs, hwb, hind, hiconn, hims, hii1, hiio, hoconn, hoo1, hocap,
      hofl, houd⟩ := hI
    have hU : 1 ≤ UINT_MAX := UINT_MAX_pos
    have hV : readBytes s.io.input.data (s.io.input.moff + s.io.inOff)
        (min (s.io.input.msize - s.io.inOff) UINT_MAX) =
        (bs.drop s.io.written).take
          (min (s.io.input.msize - s.io.inOff) UINT_MAX) := by
      rw [hind, readBytes_eq_slice (bs.length :: bs) _ _
        (by simp only [List.length_cons]; omega), hiconn,
        Nat.add_comm 1 s.io.written, List.drop_succ_cons]
    have hVlen : (readBytes s.io.input.data (s.io.input.moff + s.io.inOff)
        (min (s.io.input.msize - s.io.inOff) UINT_MAX)).length =
        min (s.io.input.msize - s.io.inOff) UINT_MAX :=
      readBytes_length _ _ _
    have hremeq : s.io.input.msize - s.io.inOff =
        bs.length - s.io.written := by omega
    have hcall0 := inflRun_some_eq (bs.length - s.io.written) s.io
    rw [← hcs] at hcall0
    set R := readBytes s.io.input.data (s.io.input.moff + s.io.inOff)
      (min (s.io.input.msize - s.io.inOff) UINT_MAX) with hR
    set C := min (min R.length
      (min (s.io.output.msize - s.io.outOff) UINT_MAX))
      (bs.length - s.io.written) with hC
    have hclen : (R.take C).length = C := by
      simp only [List.length_take]
      omega
    have hstep := app_iter_cont_eq inflRun s _ _ _ hcall0
      (by dsimp only; omega)
      (by dsimp only; omega)
      (by dsimp only; omega)
      (by dsimp only; omega)
    by_cases hfin : (bs.length - s.io.written - C = 0)
    · rw [decide_eq_true hfin] at hstep
      rw [app_loop_cont inflRun envAll fuel s _ _ hstep, app_loop_finish]
      refine ⟨?_, ?_⟩
      · dsimp only [appContState]
        omega
      · dsimp only [appContState]
        apply readBytes_ext
        intro i hi
        rw [hoconn]
        exact overwrite_prefix_data bs _ _ _ _
          (fun j hj => by
            rw [hV, getD_take _ _ _ (by omega), getD_drop _ _ _ (by omega)])
          houd (by omega) i (by omega)
    · rw [decide_eq_false hfin] at hstep
      rw [app_loop_cont inflRun envAll fuel s _ _ hstep]
      have hd1 : (s.io.inOff + C - 1) / UNMAP_SPAN_SIZE * UNMAP_SPAN_SIZE ≤
          s.io.inOff + C - 1 := Nat.div_mul_le_self _ _
      have hd2 : (s.io.outOff + (R.take C).length - 1) / UNMAP_SPAN_SIZE *
          UNMAP_SPAN_SIZE ≤ s.io.outOff + (R.take C).length - 1 :=
        Nat.div_mul_le_self _ _
      apply ih
      · refine ⟨?_, ?_, ?_, ?_, ?_, ?_, ?_, ?_, ?_, ?_, ?_, ?_⟩ <;>
          dsimp only [appContState]
        · congr 1
          omega
        · omega
        · exact hind
        · omega
        · omega
        · omega
        · omega
        · omega
        · omega
        · omega
        · omega
        · intro i hi
          rw [hoconn]
          exact overwrite_prefix_data bs _ _ _ _
            (fun j hj => by
              rw [hV, getD_take _ _ _ (by omega), getD_drop _ _ _ (by omega)])
            houd (by omega) i (by omega)
      · dsimp only [appContState]
        omega

theorem dec_correct (bs : List Nat) :
    decompressFile (bs.length :: bs) = some bs := by
  by_cases hn0 : bs.length = 0
  · obtain rfl := List.length_eq_zero.mp hn0
    rfl
  · have hn : 1 ≤ bs.length := by omega
    have hU2 : 2 ≤ UINT_MAX := by decide
    have hv0 : readBytes (fun i => (bs.length :: bs).getD i 0) (0 + 0)
        (min ((bs.length :: bs).length - 0) UINT_MAX) =
        bs.length ::
          bs.take (min ((bs.length :: bs).length - 0) UINT_MAX - 1) := by
      rw [readBytes_eq_slice (bs.length :: bs) (0 + 0) _
        (by simp only [List.length_cons]; omega)]
      simp only [Nat.zero_add, List.drop_zero]
      conv_lhs => rw [show min ((bs.length :: bs).length - 0) UINT_MAX =
        (min ((bs.length :: bs).length - 0) UINT_MAX - 1) + 1 from by
          simp only [List.length_cons]; omega]
      rw [List.take_succ_cons]
    have hcall0 : inflRun none
        ⟨⟨0, (bs.length :: bs).length, (bs.length :: bs).length,
          fun i => (bs.length :: bs).getD i 0⟩,
         ⟨0, (bs.length :: bs).length, (bs.length :: bs).length,
          fun _ => 0⟩, 0, 0, 0⟩ = .next
        (some (bs.length - min (min (bs.take
          (min ((bs.length :: bs).length - 0) UINT_MAX - 1)).length
          (min ((bs.length :: bs).length - 0) UINT_MAX)) bs.length))
        ⟨⟨0, (bs.length :: bs).length, (bs.length :: bs).length,
          fun i => (bs.length :: bs).getD i 0⟩,
         ⟨0, (bs.length :: bs).length, (bs.length :: bs).length,
          overwrite (fun _ => 0) (0 + 0) ((bs.take
            (min ((bs.length :: bs).length - 0) UINT_MAX - 1)).take
            (min (min (bs.take
              (min ((bs.length :: bs).length - 0) UINT_MAX - 1)).length
              (min ((bs.length :: bs).length - 0) UINT_MAX)) bs.length))⟩,
         0 + (1 + min (min (bs.take
           (min ((bs.length :: bs).length - 0) UINT_MAX - 1)).length
           (min ((bs.length :: bs).length - 0) UINT_MAX)) bs.length),
         0 + ((bs.take
           (min ((bs.length :: bs).length - 0) UINT_MAX - 1)).take
           (min (min (bs.take
             (min ((bs.length :: bs).length - 0) UINT_MAX - 1)).length
             (min ((bs.length :: bs).length - 0) UINT_MAX))
             bs.length)).length,
         0 + ((bs.take
           (min ((bs.length :: bs).length - 0) UINT_MAX - 1)).take
           (min (min (bs.take
             (min ((bs.length :: bs).length - 0) UINT_MAX - 1)).length
             (min ((bs.length :: bs).length - 0) UINT_MAX))
             bs.length)).length⟩
        (decide (bs.length - min (min (bs.take
          (min ((bs.length :: bs).length - 0) UINT_MAX - 1)).length
          (min ((bs.length :: bs).length - 0) UINT_MAX)) bs.length = 0)) := by
      unfold inflRun
      dsimp only
      rw [hv0]
      rfl
    set A := min ((bs.length :: bs).length - 0) UINT_MAX with hA
    set c0 := min (min (bs.take (A - 1)).length A) bs.length with hc0
    have hAge : 2 ≤ A := by
      rw [hA]
      simp only [List.length_cons]
      omega
    have hrl : (bs.take (A - 1)).length = min (A - 1) bs.length := by
      simp only [List.length_take]
    have hc0b : 1 ≤ c0 ∧ c0 ≤ bs.length ∧ c0 ≤ A - 1 := by
      rw [hc0, hrl]
      omega
    have htl : ((bs.take (A - 1)).take c0).length = c0 := by
      simp only [List.length_take]
      omega
    have hstep := app_iter_cont_eq inflRun
      ⟨none, ⟨⟨0, (bs.length :: bs).length, (bs.length :: bs).length,
        fun i => (bs.length :: bs).getD i 0⟩,
       ⟨0, (bs.length :: bs).length, (bs.length :: bs).length,
        fun _ => 0⟩, 0, 0, 0⟩, 0, []⟩ _ _ _ hcall0
      (by dsimp only; omega)
      (by dsimp only; simp only [List.length_cons]; omega)
      (by dsimp only; omega)
      (by dsimp only; simp only [List.length_cons]; omega)
    have hrun : (app_loop inflRun envAll ((bs.length :: bs).length + 2)
        ⟨none, ⟨⟨0, (bs.length :: bs).length, (bs.length :: bs).length,
          fun i => (bs.length :: bs).getD i 0⟩,
         ⟨0, (bs.length :: bs).length, (bs.length :: bs).length,
          fun _ => 0⟩, 0, 0, 0⟩, 0, []⟩ false).onOk
        (fun sf => sf.io.output.flen = bs.length ∧
          readBytes sf.io.output.data 0 bs.length = bs) := by
      show (app_loop inflRun envAll ((bs.length :: bs).length + 1 + 1)
        ⟨none, ⟨⟨0, (bs.length :: bs).length, (bs.length :: bs).length,
          fun i => (bs.length :: bs).getD i 0⟩,
         ⟨0, (bs.length :: bs).length, (bs.length :: bs).length,
          fun _ => 0⟩, 0, 0, 0⟩, 0, []⟩ false).onOk
        (fun sf => sf.io.output.flen = bs.length ∧
          readBytes sf.io.output.data 0 bs.length = bs)
      by_cases hfin0 : (bs.length - c0 = 0)
      · rw [decide_eq_true hfin0] at hstep
        rw [app_loop_cont inflRun envAll ((bs.length :: bs).length + 1)
          _ _ _ hstep, app_loop_finish]
        refine ⟨?_, ?_⟩
        · dsimp only [appContState]
          omega
        · dsimp only [appContState]
          apply readBytes_ext
          intro i hi
          simp only [Nat.zero_add]
          exact overwrite_prefix_data bs _ _ _ _
            (fun j hj => by
              rw [getD_take _ _ _ (by omega)]
              congr 1
              omega)
            (fun i hilt => absurd hilt (by omega)) (by omega) i (by omega)
      · rw [decide_eq_false hfin0] at hstep
        rw [app_loop_cont inflRun envAll ((bs.length :: bs).length + 1)
          _ _ _ hstep]
        have hd1 : (0 + (1 + c0) - 1) / UNMAP_SPAN_SIZE * UNMAP_SPAN_SIZE ≤
            0 + (1 + c0) - 1 := Nat.div_mul_le_self _ _
        have hd2 : (0 + ((bs.take (A - 1)).take c0).length - 1) /
            UNMAP_SPAN_SIZE * UNMAP_SPAN_SIZE ≤
            0 + ((bs.take (A - 1)).take c0).length - 1 :=
          Nat.div_mul_le_self _ _
        apply dec_loop
        · refine ⟨?_, ?_, ?_, ?_, ?_, ?_, ?_, ?_, ?_, ?_, ?_, ?_⟩ <;>
            dsimp only [appContState]
          · congr 1
            omega
          · omega
          · omega
          · simp only [List.length_cons]
            omega
          · omega
          · omega
          · omega
          · omega
          · simp only [List.length_cons]
            omega
          · simp only [List.length_cons]
            omega
          · intro i hi
            simp only [Nat.zero_add]
            exact overwrite_prefix_data bs _ _ _ _
              (fun j hj => by
                rw [getD_take _ _ _ (by omega)]
                congr 1
                omega)
              (fun i hilt => absurd hilt (by omega)) (by omega) i (by omega)
        · dsimp only [appContState]
          simp only [List.length_cons]
          omega
    unfold decompressFile run_transformer_app
    have hres := AppOut.onOk_map hrun
      (fun sf hsf => show readBytes sf.io.output.data 0 sf.io.output.flen =
        bs from by rw [hsf.1, hsf.2])
    revert hres
    cases app_loop inflRun envAll ((bs.length :: bs).length + 2)
        ⟨none, ⟨⟨0, (bs.length :: bs).length, (bs.length :: bs).length,
          fun i => (bs.length :: bs).getD i 0⟩,
         ⟨0, (bs.length :: bs).length, (bs.length :: bs).length,
          fun _ => 0⟩, 0, 0, 0⟩, 0, []⟩ false with
    | ok sf => intro hres; exact congrArg some hres
    | fail sf e => intro hres; exact hres.elim
    | fuelOut => intro hres; exact hres.elim

/-- C5: For every input byte sequence, including the empty sequence, running
the decompression transform on the result of the compression transform
reproduces the original input exactly: decompress(compress(input)) == input.
Here compressFile runs the spec-modelled compressor through the real
transform_mapped_file embedding (deflate.c main) and decompressFile runs the
spec-modelled decompressor through the real run_transformer_app embedding
(inflate.c main), both under the all-success syscall environment. -/
theorem round_trip (bs : List Nat) :
    (compressFile bs).bind decompressFile = some bs := by
  rw [comp_correct bs]
  exact dec_correct bs

end Mmc
